import Mathlib

/-!
Verification of the go-ast metadata-driven SQL data-access synthesizer
(`dragonfly.go` and its helper builders).

The Go syntax tree fragments produced by the synthesizer are shallowly
embedded as the inductive types `GoExpr`, `GoStmt` and the record types
below.  Pure Go functions of the sources become Lean functions; panics
become `Option.none`; the single process-wide mutable cell (the encryption
hook) becomes an explicitly passed state value.  The recursive filter
processor is embedded with an explicit fuel argument that strictly exceeds
the structural size of its input, so every definition is a plain structural
recursion that the kernel can evaluate.

Functions of this repository that are referenced by `dragonfly.go` but are
not part of the given sources (the operator emission methods, the tag
helpers and the value-append helper) are modelled from the specification;
each such definition carries a doc comment starting with
`Modelled from the spec:`.
-/

namespace GoAst

/-- Embedding of the subset of `go/ast` expressions the synthesizer builds:
identifiers, literals, selectors, star and unary expressions, binary
expressions, calls and array types. -/
inductive GoExpr where
  | ident (name : String)
  | basicLit (kind : String) (value : String)
  | selector (x : GoExpr) (sel : String)
  | star (x : GoExpr)
  | unary (op : String) (x : GoExpr)
  | binary (x : GoExpr) (op : String) (y : GoExpr)
  | call (fn : GoExpr) (args : List GoExpr) (ellipsis : Bool)
  | arrayType (elt : GoExpr)

/-- Embedding of `ast.Field`: declared names, a type expression and an
optional struct tag (`Tag.Value`; `none` models a nil `Tag` pointer). -/
structure GoField where
  names : List String
  typ : GoExpr
  tag : Option String

/-- Embedding of the `ast.TypeSpec` values the synthesizer declares; every
such spec is a named struct type, so only the name and the field list are
kept. -/
structure GoTypeSpec where
  name : String
  fieldsList : List GoField

/-- Embedding of `ast.ValueSpec` as produced by `VariableValue` and
`VariableType` of `common.go`. -/
structure GoValueSpec where
  names : List String
  typ : Option GoExpr
  values : List GoExpr

/-- Embedding of the subset of `go/ast` statements the synthesizer emits. -/
inductive GoStmt where
  | declStmt (specs : List GoValueSpec)
  | assign (lhs : List String) (tok : String) (rhs : List GoExpr)
  | ifStmt (cond : GoExpr) (body : List GoStmt)
  | exprStmt (x : GoExpr)

/-- Embedding of `CallFunctionDescriber` of `caller.go`. -/
structure CallFunctionDescriber where
  functionName : GoExpr
  minimumNumberOfArguments : Nat
  extensibleNumberOfArguments : Bool

/-- Embeds `SimpleSelector` of `stmt.go`: dot access `pack.object` from strings. -/
def SimpleSelector (pack object : String) : GoExpr :=
  .selector (.ident pack) object

/-- Embeds `Selector` of `stmt.go`. -/
def Selector (x : GoExpr) (object : String) : GoExpr :=
  .selector x object

/-- Embeds `Star` of `stmt.go`: the dereference `*expr`. -/
def StarExpr (expr : GoExpr) : GoExpr :=
  .star expr

/-- Embeds `Ref` of `stmt.go`: the address-of `&expr` (a unary `token.AND`). -/
def Ref (expr : GoExpr) : GoExpr :=
  .unary "&" expr

/-- Embeds `Not` of `stmt.go`: the inversion `!expr`; named `NotE` here because
`Not` is taken by the logic of Lean. -/
def NotE (expr : GoExpr) : GoExpr :=
  .unary "!" expr

/-- Embeds `Nil` of `common.go`: the identifier `nil`. -/
def Nil : GoExpr :=
  .ident "nil"

/-- Embeds `NotEqual` of `stmt.go`: the comparison `left != right`. -/
def NotEqual (left right : GoExpr) : GoExpr :=
  .binary left "!=" right

/-- Embeds `NotNil` of `stmt.go`: the comparison `expr != nil`. -/
def NotNil (expr : GoExpr) : GoExpr :=
  .binary expr "!=" Nil

/-- Embeds `If` of `stmt.go`: an if statement with condition and body block. -/
def If (condition : GoExpr) (body : List GoStmt) : GoStmt :=
  .ifStmt condition body

/-- Embeds `Add` of `stmt.go` folds `+` over its arguments from the left; all the
call sites of the synthesizer pass at least one argument, embedded here as
a head argument plus the remaining list. -/
def AddExpr (first : GoExpr) (rest : List GoExpr) : GoExpr :=
  rest.foldl (fun acc e => .binary acc "+" e) first

/-- Embeds `Call` of `caller.go` builds a call expression with no ellipsis.  The
argument-count check of `checkArgsCount` panics on violation; every call
site embedded in this file satisfies its descriptor statically, so the
embedding keeps the constructor total. -/
def Call (fn : CallFunctionDescriber) (args : List GoExpr) : GoExpr :=
  .call fn.functionName args false

/-- Embeds `checkArgsCount` of `caller.go` as a pure acceptance test. -/
def checkArgsCount (c : CallFunctionDescriber) (a : Nat) : Bool :=
  decide (c.minimumNumberOfArguments ≤ a) &&
    (c.extensibleNumberOfArguments || decide (a ≤ c.minimumNumberOfArguments))

/-- Embeds `AppendFn` of `caller.go`: the builtin `append`. -/
def AppendFn : CallFunctionDescriber :=
  ⟨.ident "append", 1, true⟩

/-- Embeds `MakeFn` of `caller.go`: the builtin `make`. -/
def MakeFn : CallFunctionDescriber :=
  ⟨.ident "make", 1, true⟩

/-- Embeds `StringsJoinFn` of `caller.go`: `strings.Join`. -/
def StringsJoinFn : CallFunctionDescriber :=
  ⟨SimpleSelector "strings" "Join", 2, false⟩

/-- Embeds `FmtSprintfFn` of `caller.go`: `fmt.Sprintf`. -/
def FmtSprintfFn : CallFunctionDescriber :=
  ⟨SimpleSelector "fmt" "Sprintf", 1, true⟩

/-- Embeds `TimeNowFn` of `caller.go`: `time.Now`. -/
def TimeNowFn : CallFunctionDescriber :=
  ⟨SimpleSelector "time" "Now", 0, false⟩

/-- Embeds `String` of `common.go`: the identifier of the `string` type; named
`StringIdent` because `String` is taken by the strings of Lean. -/
def StringIdent : GoExpr :=
  .ident "string"

/-- Embeds `ArrayType` of `stmt.go` with no length argument, the only form the
synthesizer uses. -/
def ArrayTypeOf (elt : GoExpr) : GoExpr :=
  .arrayType elt

/-- Embeds `StringConstant.Expr` of `stmt.go`: a string basic literal, quoted with
backquotes when the text holds a double quote or a newline and with double
quotes otherwise. -/
def stringConstantExpr (c : String) : GoExpr :=
  if c.contains '"' || c.contains '\n' then
    .basicLit "STRING" ("\x60" ++ c ++ "\x60")
  else
    .basicLit "STRING" ("\"" ++ c ++ "\"")

/-- Embeds `IntegerConstant.Expr` of `stmt.go`: an integer basic literal. -/
def integerConstantExpr (c : Int) : GoExpr :=
  .basicLit "INT" (toString c)

/-- Embeds `VariableValue` of `common.go`: a value spec with one name, no type and
the given values. -/
def VariableValue (name : String) (vals : List GoExpr) : GoValueSpec :=
  ⟨[name], none, vals⟩

/-- Embeds `Var` of `stmt.go` wraps specs into a var declaration statement; the
synthesizer only ever passes value specs, which `varSpecDependOnCount`
leaves unchanged. -/
def Var (specs : List GoValueSpec) : GoStmt :=
  .declStmt specs

/-- Embeds `Assign` of `common.go` with the plain `=` token. -/
def Assign (varNames : List String) (tok : String) (rhs : List GoExpr) : GoStmt :=
  .assign varNames tok rhs

/-- The recurring statement shape `v = append(v, e)` the synthesizer emits
through `Assign`/`AppendFn`, kept as one abbreviation because both the
sources and the modelled helpers use exactly this shape. -/
def appendToVar (v : String) (e : GoExpr) : GoStmt :=
  Assign [v] "=" [Call AppendFn [.ident v, e]]

/-- Embeds `SourceSql` of `dragonfly.go`: a single column, a raw sql expression,
or an ordered union of column names. -/
inductive SourceSql where
  | column (columnName : String)
  | expression (e : String)
  | someColumns (columnNames : List String)

/-- Embeds `sqlExpr` of `dragonfly.go` for the three source kinds. -/
def SourceSql.sqlExpr : SourceSql → String
  | .column c => c
  | .expression e => e
  | .someColumns cs => String.intercalate ", " cs

/-- Embeds `MetaField` of `dragonfly.go`: one leaf field descriptor. -/
structure MetaField where
  field : GoField
  sourceSql : SourceSql
  caseInsensitive : Bool
  isMaybeType : Bool
  isCustomType : Bool
  compareOperator : String
  constant : String

/-- Embeds `MetaFieldI` of `dragonfly.go`: either a leaf `MetaField` or a group
`MetaFields` holding an ordered list of descriptors. -/
inductive MetaFieldI where
  | metaField (f : MetaField)
  | metaFields (fs : List MetaFieldI)

/-- Embeds `GetField` of `dragonfly.go`: defined for leaves; the `MetaFields`
implementation panics (`unimplemented`), embedded as `none`. -/
def MetaFieldI.GetField : MetaFieldI → Option GoField
  | .metaField f => some f.field
  | .metaFields _ => none

/-- Embeds `compareOperators` of `dragonfly.go`: the fixed operator set. -/
def compareOperators : List String :=
  ["equal", "notEqual", "like", "notLike", "in", "notIn",
   "great", "less", "notGreat", "notLess", "starts", "isNull"]

/-- Embeds `multiCompareOperators` of `dragonfly.go`. -/
def multiCompareOperators : List String :=
  ["in", "notIn"]

/-- Embeds `SQLDataCompareOperator.IsMult` of `dragonfly.go`. -/
def IsMult (c : String) : Bool :=
  multiCompareOperators.contains c

/-- Embeds `SQLDataCompareOperator.Check` of `dragonfly.go`: the empty operator is
normalized to `equal`; an operator outside the fixed set panics, embedded
as `none`. -/
def CheckOperator (c : String) : Option String :=
  let c := if c = "" then "equal" else c
  if compareOperators.contains c then some c else none

/-- Embeds `iOperator` of `dragonfly.go` together with its three implementations:
the regular and inline shapes registered in `knownOperators` and the
constant shape built by `makeFindProcessorForConst` (a struct embedding
`opInline` in Go). -/
inductive iOperator where
  | opRegular (operator : String)
  | opInline (operator : String)
  | opConstant (operator : String)

/-- The template string an operator value carries. -/
def iOperator.operator : iOperator → String
  | .opRegular o => o
  | .opInline o => o
  | .opConstant o => o

/-- Embeds `knownOperators` of `dragonfly.go`, with the template texts copied
verbatim (note the `% != %s` text of `notEqual` and the two verbs of
`isNull`). -/
def knownOperators : List (String × iOperator) :=
  [("equal", .opRegular "%s = %s"),
   ("notEqual", .opRegular "% != %s"),
   ("like", .opRegular "%s like \x27%%\x27||%s||\x27%%\x27"),
   ("notLike", .opRegular "%s not like \x27%%\x27||%s||\x27%%\x27"),
   ("in", .opRegular "%s in (%s)"),
   ("notIn", .opRegular "%s not in (%s)"),
   ("great", .opRegular "%s > %s"),
   ("less", .opRegular "%s < %s"),
   ("notGreat", .opRegular "%s <= %s"),
   ("notLess", .opRegular "%s >= %s"),
   ("starts", .opRegular "%s starts with %s"),
   ("isNull", .opInline "%s is %s")]

/-- Embeds `getBuilder` of `dragonfly.go`: validate the operator, then look the
template up; both failure paths panic, embedded as `none`. -/
def getBuilder (c : String) : Option iOperator := do
  let c ← CheckOperator c
  knownOperators.lookup c

/-- Counts the `%s` formatting verbs of a template text, skipping the `%%`
escape of a literal percent sign. -/
def countVerbS : List Char → Nat
  | '%' :: '%' :: rest => countVerbS rest
  | '%' :: 's' :: rest => countVerbS rest + 1
  | _ :: rest => countVerbS rest
  | [] => 0

/-- Embeds `builderOptions` of `dragonfly.go`. -/
structure builderOptions where
  appendValueFormat : String
  variableForColumnNames : Option String
  variableForColumnValues : String
  variableForColumnExpr : String

/-- Embeds `FindBuilderOptions` of `dragonfly.go`. -/
def FindBuilderOptions : builderOptions :=
  ⟨"%s = $%%d", none, "args", "filters"⟩

/-- Embeds `InsertBuilderOptions` of `dragonfly.go`. -/
def InsertBuilderOptions : builderOptions :=
  ⟨"/* %s */ $%%d", some "fields", "args", "values"⟩

/-- Embeds `UpdateBuilderOptions` of `dragonfly.go`. -/
def UpdateBuilderOptions : builderOptions :=
  ⟨"%s = $%%d", none, "args", "fields"⟩

/-- Embeds `DeleteBuilderOptions` of `dragonfly.go`. -/
def DeleteBuilderOptions : builderOptions :=
  ⟨"%s = $%%d", none, "args", "filters"⟩

/-- Embeds `TagTypeSQL` of `dragonfly.go`. -/
def TagTypeSQL : String := "sql"

/-- Embeds `tagGenerate` of `dragonfly.go`. -/
def tagGenerate : String := "generate"

/-- Embeds `tagEncrypt` of `dragonfly.go`. -/
def tagEncrypt : String := "encrypt"

/-! ## Operator emission, modelled from the spec

The methods `makeScalarQueryOption`, `makeArrayQueryOption` and
`makeUnionQueryOption` of the `iOperator` implementations are referenced by
`dragonfly.go` but their bodies are not part of the given sources. -/

/-- Modelled from the spec: the operator template engine formats one filter
fragment from the operator template and the column reference, appends it to
the fragment accumulator, and appends the value expression (dereferenced
when the field is pointer optional) to the argument accumulator; the inline
shape (is-null) takes no bound argument, and the constant shape substitutes
the compiled-in literal and adds no entry to the argument accumulator.
Case-insensitivity only changes the built expressions and is not modelled. -/
def iOperator.makeScalarQueryOption (op : iOperator)
    (optionName fieldName columnName : String) (ci ref : Bool)
    (options : builderOptions) : List GoStmt :=
  let value : GoExpr :=
    if ref then StarExpr (SimpleSelector optionName fieldName)
    else SimpleSelector optionName fieldName
  let _ := ci
  match op with
  | .opRegular t =>
      [appendToVar options.variableForColumnExpr
        (Call FmtSprintfFn
          [stringConstantExpr t, stringConstantExpr columnName,
           stringConstantExpr options.appendValueFormat]),
       appendToVar options.variableForColumnValues value]
  | .opInline t =>
      [appendToVar options.variableForColumnExpr
        (Call FmtSprintfFn
          [stringConstantExpr t, stringConstantExpr columnName])]
  | .opConstant t =>
      [appendToVar options.variableForColumnExpr
        (Call FmtSprintfFn
          [stringConstantExpr t, stringConstantExpr columnName,
           stringConstantExpr fieldName])]

/-- Modelled from the spec: the multi-value shape emits the array comparison
fragment unconditionally and appends one array-typed argument representing
the whole value set to the argument accumulator. -/
def iOperator.makeArrayQueryOption (op : iOperator)
    (optionName fieldName columnName : String) (ci : Bool)
    (options : builderOptions) : List GoStmt :=
  let _ := ci
  [appendToVar options.variableForColumnExpr
    (Call FmtSprintfFn
      [stringConstantExpr op.operator, stringConstantExpr columnName,
       stringConstantExpr options.appendValueFormat]),
   appendToVar options.variableForColumnValues
     (SimpleSelector optionName fieldName)]

/-- Modelled from the spec: the union shape compares several source columns
against one caller value: it appends one fragment built from the joined
column list and exactly one argument to the argument accumulator. -/
def iOperator.makeUnionQueryOption (op : iOperator) (valueExpr : GoExpr)
    (union : List String) (ci : Bool) (options : builderOptions) :
    List GoStmt :=
  let _ := ci
  [appendToVar options.variableForColumnExpr
    (Call FmtSprintfFn
      [stringConstantExpr op.operator,
       stringConstantExpr (String.intercalate " or " union)]),
   appendToVar options.variableForColumnValues valueExpr]

/-! ## The filter processors of `dragonfly.go` -/

/-- Tests whether a field type is a star (pointer) expression, the Go type
assertion `.(*ast.StarExpr)`. -/
def GoExpr.isStar : GoExpr → Bool
  | .star _ => true
  | _ => false

/-- Embeds `makeFindProcessorForUnion` of `dragonfly.go`: panics (`none`) when the
operator is multi-value; wraps the emission in a non-nil guard when the
field type is a pointer. -/
def makeFindProcessorForUnion (funcFilterOptionName fieldName : String)
    (union : List String) (field : MetaField) (options : builderOptions) :
    Option (List GoStmt) :=
  if IsMult field.compareOperator then none
  else if field.field.typ.isStar then do
    let b ← getBuilder field.compareOperator
    some [If (NotEqual (SimpleSelector funcFilterOptionName fieldName) Nil)
      (b.makeUnionQueryOption
        (StarExpr (SimpleSelector funcFilterOptionName fieldName)) union
        field.caseInsensitive options)]
  else do
    let b ← getBuilder field.compareOperator
    some (b.makeUnionQueryOption
      (SimpleSelector funcFilterOptionName fieldName) union
      field.caseInsensitive options)

/-- Embeds `makeFindProcessorForSingle` of `dragonfly.go`: a pointer-typed field is
wrapped in the guard `if option.field != nil` with the dereferenced value,
a non-pointer field is emitted unconditionally. -/
def makeFindProcessorForSingle (funcFilterOptionName fieldName : String)
    (field : MetaField) (options : builderOptions) : Option (List GoStmt) :=
  if field.field.typ.isStar then do
    let b ← getBuilder field.compareOperator
    some [If (NotEqual (SimpleSelector funcFilterOptionName fieldName) Nil)
      (b.makeScalarQueryOption funcFilterOptionName fieldName
        field.sourceSql.sqlExpr field.caseInsensitive true options)]
  else do
    let b ← getBuilder field.compareOperator
    some (b.makeScalarQueryOption funcFilterOptionName fieldName
      field.sourceSql.sqlExpr field.caseInsensitive false options)

/-- Embeds `makeFindProcessorForConst` of `dragonfly.go`: reuses the template of
the looked-up operator inside a constant shape and emits with the constant
literal in place of the caller value. -/
def makeFindProcessorForConst (funcFilterOptionName fieldName : String)
    (field : MetaField) (options : builderOptions) : Option (List GoStmt) := do
  let _ := fieldName
  let tmpOperator ← getBuilder field.compareOperator
  let operatorValue :=
    match tmpOperator with
    | .opInline o => o
    | .opRegular o => o
    | _ => "/* %s */ %s"
  let newOperator := iOperator.opConstant operatorValue
  some (newOperator.makeScalarQueryOption funcFilterOptionName field.constant
    field.sourceSql.sqlExpr field.caseInsensitive false options)

/-- Embeds `MetaField.buildFindArgumentsProcessor` of `dragonfly.go`: the per-leaf
dispatch.  A leaf whose underlying `ast.Field` does not declare exactly one
name panics (`none`); the result is the emitted statements together with
the fields appended to the option struct (empty for a constant leaf). -/
def MetaField.buildFindArgumentsProcessor (mf : MetaField)
    (funcFilterOptionName : String) (options : builderOptions) :
    Option (List GoStmt × List GoField) :=
  match mf.field.names with
  | [fieldName] =>
    match mf.sourceSql with
    | .someColumns union => do
        let body ← makeFindProcessorForUnion funcFilterOptionName fieldName
          union mf options
        some (body, [mf.field])
    | _ =>
        if IsMult mf.compareOperator then do
          let b ← getBuilder mf.compareOperator
          some (b.makeArrayQueryOption funcFilterOptionName fieldName
            mf.sourceSql.sqlExpr mf.caseInsensitive options, [mf.field])
        else if mf.constant ≠ "" then do
          let body ← makeFindProcessorForConst funcFilterOptionName fieldName
            mf options
          some (body, [])
        else do
          let body ← makeFindProcessorForSingle funcFilterOptionName fieldName
            mf options
          some (body, [mf.field])
  | _ => none

/-- The declarations result of the processors: a Go map from generated
shape name to its type spec, embedded as an association list with the
insertion semantics of a Go map. -/
abbrev DeclMap := List (String × GoTypeSpec)

/-- Insertion into the embedded Go map: replace the entry when the key is
present, append it otherwise. -/
def mapInsert (m : DeclMap) (k : String) (v : GoTypeSpec) : DeclMap :=
  if m.any (fun p => p.1 = k) then
    m.map (fun p => if p.1 = k then (k, v) else p)
  else m ++ [(k, v)]

/-- The Go loop `for k, v := range child { parent[k] = v }`: every entry of
the second map inserted into the first. -/
def insertAll (m : DeclMap) (es : DeclMap) : DeclMap :=
  es.foldl (fun acc p => mapInsert acc p.1 p.2) m

/-- Containment of one character list in another as a contiguous segment,
the test `strings.Index hay needle >= 0` of the Go standard library. -/
def charsContain (hay needle : List Char) : Bool :=
  needle.isPrefixOf hay ||
    match hay with
    | [] => false
    | _ :: t => charsContain t needle

/-- Computes `strings.Index s sub >= 0` over the embedded strings. -/
def strContains (s sub : String) : Bool :=
  charsContain s.data sub.data

/-- One step of the name-derivation loop of the `MetaFields` case of
`BuildFindArgumentsProcessor`: append the single declared name of a direct
child unless it already occurs as a substring; `GetField` panics for a
nested group and `Names[0]` panics for a nameless child, both embedded as
`none`. -/
def groupNameStep (acc : String) (mf : MetaFieldI) : Option String := do
  let f ← mf.GetField
  let n ← f.names.head?
  if strContains acc n then pure acc else pure (acc ++ n)

/-- The name-derivation loop of the `MetaFields` case of
`BuildFindArgumentsProcessor`, starting from `Sub`. -/
def groupFieldName (fs : List MetaFieldI) : Option String :=
  fs.foldlM groupNameStep "Sub"

mutual

/-- A structural size of one field descriptor, used only to choose the fuel
of the embedded recursive processor. -/
def mfiSize : MetaFieldI → Nat
  | .metaField _ => 2
  | .metaFields fs => 1 + mfiSizeL fs

/-- A structural size of a descriptor list. -/
def mfiSizeL : List MetaFieldI → Nat
  | [] => 1
  | x :: xs => 1 + mfiSize x + mfiSizeL xs

end

/-- The var statement opening a group segment: the local holding the
caller-supplied sub-option value and the fresh fragment accumulator
`make([]string, 0)`. -/
def groupVarStmt (funcFilterOptionName : String) (options : builderOptions)
    (i : Nat) (newVarNameAsField : String) : GoStmt :=
  Var [VariableValue newVarNameAsField
        [Selector (.ident funcFilterOptionName) newVarNameAsField],
       VariableValue (options.variableForColumnExpr ++ Nat.repr i)
        [Call MakeFn [ArrayTypeOf StringIdent, integerConstantExpr 0]]]

/-- The statement closing a group segment, appending to the parent
accumulator the single fragment
`"(" + strings.Join(child, " or ") + ")"`. -/
def groupJoinStmt (options : builderOptions) (i : Nat) : GoStmt :=
  appendToVar options.variableForColumnExpr
    (AddExpr (stringConstantExpr "(")
      [Call StringsJoinFn
        [.ident (options.variableForColumnExpr ++ Nat.repr i),
         stringConstantExpr " or "],
       stringConstantExpr ")"])

/-- The loop body of `BuildFindArgumentsProcessor` of `dragonfly.go`,
embedded with an explicit fuel so the recursion into groups is structural.
The fuel strictly exceeding the structural size of the field list is enough
(each recursive call strictly decreases the size); exhausted fuel yields
`none`, a case the wrapper below never reaches.  The result triple is the
function body, the declared shape entries of the processed fields (in
field order, combined with Go map insertion), and the option struct field
list. -/
def processFieldsGo : Nat → String → String → Nat → List MetaFieldI →
    builderOptions → Option (List GoStmt × DeclMap × List GoField)
  | 0, _, _, _, _, _ => none
  | _ + 1, _, _, _, [], _ => some ([], [], [])
  | fuel + 1, funcFilterOptionName, funcFilterOptionTypeName, i,
      .metaField f :: rest, options => do
      let (bodyH, oflH) ← f.buildFindArgumentsProcessor funcFilterOptionName
        options
      let (bodyT, declT, oflT) ← processFieldsGo fuel funcFilterOptionName
        funcFilterOptionTypeName (i + 1) rest options
      some (bodyH ++ bodyT, declT, oflH ++ oflT)
  | fuel + 1, funcFilterOptionName, funcFilterOptionTypeName, i,
      .metaFields f :: rest, options => do
      let newVarNameAsField ← groupFieldName f
      let internalOptionName := funcFilterOptionTypeName ++ Nat.repr i
      let newVarName := options.variableForColumnExpr ++ Nat.repr i
      let (body2, decl2, ff2) ← processFieldsGo fuel newVarNameAsField
        internalOptionName 0 f
        { options with variableForColumnExpr := newVarName }
      let childDecls := mapInsert decl2 internalOptionName
        ⟨internalOptionName, ff2⟩
      let childParam : List GoField :=
        [⟨[newVarNameAsField], .ident internalOptionName, none⟩]
      let (bodyT, declT, oflT) ← processFieldsGo fuel funcFilterOptionName
        funcFilterOptionTypeName (i + 1) rest options
      some (groupVarStmt funcFilterOptionName options i newVarNameAsField ::
          body2 ++ groupJoinStmt options i :: bodyT,
        insertAll childDecls declT, childParam ++ oflT)

/-- Embeds `BuildFindArgumentsProcessor` of `dragonfly.go`: run the loop over the
field list (with fuel exceeding its structural size), then declare the own
option shape and return the formal parameter receiving it. -/
def BuildFindArgumentsProcessor (funcFilterOptionName
    funcFilterOptionTypeName : String) (optionFields : List MetaFieldI)
    (options : builderOptions) :
    Option (List GoStmt × DeclMap × List GoField) :=
  (processFieldsGo (mfiSizeL optionFields) funcFilterOptionName
      funcFilterOptionTypeName 0 optionFields options).map
    fun r =>
      (r.1,
       mapInsert r.2.1 funcFilterOptionTypeName
         ⟨funcFilterOptionTypeName, r.2.2⟩,
       [⟨[funcFilterOptionName], .ident funcFilterOptionTypeName, none⟩])

/-! ## The encryption hook -/

/-- The process-wide encryption hook of `dragonfly.go`
(`makeEncryptPasswordCallCustom`), passed explicitly: `none` when no custom
function has been registered. -/
abbrev EncryptHook := Option (GoExpr → GoExpr)

/-- Embeds `RegisterSqlFieldEncryptFunction` of `dragonfly.go`: stores the hook
when the slot is empty and panics (`none`, leaving the stored hook as it
was) when a custom function is already registered. -/
def RegisterSqlFieldEncryptFunction (current : EncryptHook)
    (encryptFn : GoExpr → GoExpr) : Option EncryptHook :=
  match current with
  | none => some (some encryptFn)
  | some _ => none

/-- Embeds `makeEncryptPasswordCall` of `dragonfly.go`: the registered hook when
set, the default `encryptPassword(value)` call convention otherwise. -/
def makeEncryptPasswordCall (custom : EncryptHook)
    (valueForEncrypt : GoExpr) : GoExpr :=
  match custom with
  | some f => f valueForEncrypt
  | none => Call ⟨.ident "encryptPassword", 1, false⟩ [valueForEncrypt]

/-! ## The input-value processor of `dragonfly.go`

The helpers `fieldTagToMap`, `makeValuePicker`, `arrayFind` and
`processValueWrapper` are referenced by `dragonfly.go` but are not part of
the given sources, so they are modelled from the specification. -/

/-- Splits a character list at every occurrence of a separator. -/
def splitChars (sep : Char) : List Char → List (List Char)
  | [] => [[]]
  | c :: rest =>
    let r := splitChars sep rest
    if c = sep then [] :: r
    else
      match r with
      | [] => [[c]]
      | h :: t => (c :: h) :: t

/-- Drops a quoting character from both ends of a character list. -/
def trimChar (q : Char) (cs : List Char) : List Char :=
  (((cs.dropWhile (· = q)).reverse.dropWhile (· = q)).reverse)

/-- Modelled from the spec: `fieldTagToMap` is not part of the sources; it
parses a struct tag of the form `` `key:"v1,v2" key2:"..."` `` into a table
from tag name to its comma-separated value list. -/
def fieldTagToMap (tag : String) : List (String × List String) :=
  (splitChars ' ' (trimChar '\x60' tag.data)).filterMap fun chunk =>
    match splitChars ':' chunk with
    | [k, v] =>
        some (⟨k⟩, (splitChars ',' (trimChar '"' v)).map fun w => (⟨w⟩ : String))
    | _ => none

/-- Modelled from the spec: `makeValuePicker` is not part of the sources; a
field whose sql tag values carry the generate directive is omitted (its
value is synthesized by the registered generator call and never requested
from the caller); every other field reads the option carrier. -/
def makeValuePicker (tags : List String) (fieldName : GoExpr) :
    GoExpr × Bool :=
  if tags.contains tagGenerate then (Call TimeNowFn [], true)
  else (fieldName, false)

/-- Modelled from the spec: `arrayFind` is not part of the sources; it
returns the zero-based position of the first occurrence of a value in a
slice and `-1` when absent, so that `arrayFind tags tagEncrypt > 0` means
the encrypt marker occurs past the leading column name. -/
def arrayFind (l : List String) (x : String) : Int :=
  match l.findIdx? (· = x) with
  | some i => Int.ofNat i
  | none => -1

/-- Modelled from the spec: `processValueWrapper` is not part of the
sources; it emits the value-append statement sequence of one column: the
column name append when the options carry a column-name accumulator, the
fragment append, and the argument append. -/
def processValueWrapper (colName : String) (value : GoExpr)
    (options : builderOptions) : List GoStmt :=
  (match options.variableForColumnNames with
   | some v => [appendToVar v (stringConstantExpr colName)]
   | none => []) ++
  [appendToVar options.variableForColumnExpr
    (Call FmtSprintfFn
      [stringConstantExpr options.appendValueFormat,
       stringConstantExpr colName]),
   appendToVar options.variableForColumnValues value]

/-- The per-field body of the loop of `BuildInputValuesProcessor` of
`dragonfly.go`: returns the emitted statements together with the option
struct fields the field contributes (empty when omitted).  Panics embedded
as `none`: a group descriptor, a nil struct tag, a nameless field, and a
missing or empty sql tag (whose `[1:]` re-slice panics in Go). -/
def processInputField (funcInputOptionName : String)
    (options : builderOptions) (enc : EncryptHook) (mfi : MetaFieldI) :
    Option (List GoStmt × List GoField) := do
  match mfi with
  | .metaFields _ => none
  | .metaField field => do
    let tagText ← field.field.tag
    let tags := fieldTagToMap tagText
    let colName := field.sourceSql
    let n0 ← field.field.names.head?
    let fieldName := SimpleSelector funcInputOptionName n0
    let sqlTags ← tags.lookup TagTypeSQL
    if sqlTags.isEmpty then none
    else do
      let (valueExpr0, isOmittedField) :=
        makeValuePicker (sqlTags.drop 1) fieldName
      let structFields : List GoField :=
        if isOmittedField then [] else [field.field]
      let isStarExpression := field.field.typ.isStar
      let wrapKind : Nat :=
        if isStarExpression && !isOmittedField then 2
        else if !isOmittedField && field.isMaybeType then 1
        else 0
      let valueExpr1 :=
        if !isStarExpression && field.isCustomType then Ref valueExpr0
        else valueExpr0
      let valueExpr :=
        if arrayFind sqlTags tagEncrypt > 0 then
          makeEncryptPasswordCall enc
            (if isStarExpression then StarExpr valueExpr1
             else if field.isMaybeType then Selector valueExpr1 "value"
             else valueExpr1)
        else valueExpr1
      let inner := processValueWrapper colName.sqlExpr valueExpr options
      let stmts :=
        match wrapKind with
        | 2 => [If (NotNil fieldName) inner]
        | 1 => [If (NotE (Call ⟨Selector fieldName "IsOmitted", 0, false⟩ []))
                 inner]
        | _ => inner
      some (stmts, structFields)

/-- The loop of `BuildInputValuesProcessor`: statements and option struct
fields accumulated in input field order. -/
def inputLoopGo (funcInputOptionName : String) (options : builderOptions)
    (enc : EncryptHook) : List MetaFieldI →
    Option (List GoStmt × List GoField)
  | [] => some ([], [])
  | mfi :: rest => do
      let (stmtsH, sfH) ← processInputField funcInputOptionName options enc
        mfi
      let (stmtsT, sfT) ← inputLoopGo funcInputOptionName options enc rest
      some (stmtsH ++ stmtsT, sfH ++ sfT)

/-- Embeds `BuildInputValuesProcessor` of `dragonfly.go`: run the loop; when every
field is omitted, return an empty declarations map and no formal
parameter, otherwise declare the option shape and its receiving
parameter. -/
def BuildInputValuesProcessor (funcInputOptionName
    funcInputOptionTypeName : String) (optionFields : List MetaFieldI)
    (options : builderOptions) (enc : EncryptHook) :
    Option (List GoStmt × DeclMap × List GoField) := do
  let (functionBody, optionStructFields) ←
    inputLoopGo funcInputOptionName options enc optionFields
  if optionStructFields.isEmpty then
    some (functionBody, [], [])
  else
    some (functionBody,
      [(funcInputOptionTypeName,
        ⟨funcInputOptionTypeName, optionStructFields⟩)],
      [⟨[funcInputOptionName], .ident funcInputOptionTypeName, none⟩])

/-! ## The destination field extractor of `dragonfly.go` -/

/-- The loop body of `ExtractDestinationFieldRefsFromStruct` of
`dragonfly.go`: a leaf field appends one destination reference `&row.name`
and one source column label per declared name; any non-leaf descriptor
panics (`none`). -/
def extractStep (rowVariableName : String)
    (acc : List GoExpr × List String) (mfi : MetaFieldI) :
    Option (List GoExpr × List String) :=
  match mfi with
  | .metaField field =>
      some (acc.1 ++ field.field.names.map
              (fun n => Ref (SimpleSelector rowVariableName n)),
            acc.2 ++ field.field.names.map
              (fun _ => field.sourceSql.sqlExpr))
  | .metaFields _ => none

/-- The loop of `ExtractDestinationFieldRefsFromStruct` as a left fold over
the two accumulators. -/
def ExtractDestinationFieldRefsFromStruct (rowVariableName : String)
    (rowStructureFields : List MetaFieldI) :
    Option (List GoExpr × List String) :=
  rowStructureFields.foldlM (extractStep rowVariableName) ([], [])

/-! ## Observables used by the theorems -/

/-- Tests whether a statement is an if statement. -/
def GoStmt.isIf : GoStmt → Bool
  | .ifStmt _ _ => true
  | _ => false

/-- Tests whether a statement is the append `v = append(v, e)` into the
accumulator variable `v`. -/
def isAppendTo (v : String) : GoStmt → Bool
  | .assign [w] "=" [.call (.ident "append") (.ident w2 :: _) _] =>
      w = v && w2 = v
  | _ => false

/-- Counts the appends into `v` of one statement, looking one conditional
level deep; every statement the synthesizer emits nests appends at most one
`if` level deep. -/
def stmtAppendsTo (v : String) : GoStmt → Nat
  | .ifStmt _ body => (body.filter (isAppendTo v)).length
  | s => if isAppendTo v s then 1 else 0

/-- Counts the appends into `v` of a statement sequence. -/
def listAppendsTo (v : String) (stmts : List GoStmt) : Nat :=
  (stmts.map (stmtAppendsTo v)).sum

mutual

/-- The number of groups of a descriptor, counted recursively. -/
def countGroups1 : MetaFieldI → Nat
  | .metaField _ => 0
  | .metaFields fs => 1 + countGroups fs

/-- The number of groups of a descriptor list, counted recursively. -/
def countGroups : List MetaFieldI → Nat
  | [] => 0
  | x :: xs => countGroups1 x + countGroups xs

end

/-- The decimal digit list of a natural number, most significant first;
a reference function used to prove `Nat.repr` (the embedding of
`strconv.Itoa`) injective, which the distinctness of the generated
option-shape names reduces to. -/
def natDigitsRef (n : Nat) : List Char :=
  if h : n / 10 = 0 then [Nat.digitChar (n % 10)]
  else natDigitsRef (n / 10) ++ [Nat.digitChar (n % 10)]
decreasing_by
  exact Nat.div_lt_self (by omega) (by omega)

/-- The numeric value of a decimal digit character. -/
def digitVal (c : Char) : Nat :=
  c.toNat - 48

/-- The zero-based positions of the group descriptors of a field list,
starting the count at `i`. -/
def groupIdx : Nat → List MetaFieldI → List Nat
  | _, [] => []
  | i, .metaField _ :: rest => groupIdx (i + 1) rest
  | i, .metaFields _ :: rest => i :: groupIdx (i + 1) rest

/-- The omission decision of the write path of one leaf, as computed by
`BuildInputValuesProcessor` through the sql tag values: `none` embeds the
panics of a nil tag or a missing or empty sql tag. -/
def leafOmitted (mf : MetaField) : Option Bool := do
  let tagText ← mf.field.tag
  let tags := fieldTagToMap tagText
  let sqlTags ← tags.lookup TagTypeSQL
  if sqlTags.isEmpty then none
  else some (makeValuePicker (sqlTags.drop 1) (.ident "x")).2

/-- Distinguishes the union source shape. -/
def SourceSql.isUnion : SourceSql → Bool
  | .someColumns _ => true
  | _ => false

/-- A plain scalar leaf field over a single column. -/
def egLeaf (nm col op : String) : MetaField :=
  { field := ⟨[nm], StringIdent, none⟩, sourceSql := .column col,
    caseInsensitive := false, isMaybeType := false, isCustomType := false,
    compareOperator := op, constant := "" }

/-- A pointer-typed scalar leaf field over a single column. -/
def egStarLeaf (nm col op : String) : MetaField :=
  { field := ⟨[nm], .star StringIdent, none⟩, sourceSql := .column col,
    caseInsensitive := false, isMaybeType := false, isCustomType := false,
    compareOperator := op, constant := "" }

/-- A leaf field over a union of source columns. -/
def egUnionLeaf (nm : String) (cols : List String) (op : String) :
    MetaField :=
  { field := ⟨[nm], StringIdent, none⟩, sourceSql := .someColumns cols,
    caseInsensitive := false, isMaybeType := false, isCustomType := false,
    compareOperator := op, constant := "" }

/-- A leaf field declaring two names, as accepted by the scan path. -/
def egTwoNames : MetaField :=
  { field := ⟨["A", "B"], StringIdent, none⟩, sourceSql := .column "a",
    caseInsensitive := false, isMaybeType := false, isCustomType := false,
    compareOperator := "equal", constant := "" }

/-- A tagged scalar leaf for the write path. -/
def egTaggedLeaf (nm col : String) (tagText : String) : MetaField :=
  { field := ⟨[nm], StringIdent, some tagText⟩, sourceSql := .column col,
    caseInsensitive := false, isMaybeType := false, isCustomType := false,
    compareOperator := "equal", constant := "" }

/-- The concrete field list of the group numbering counterexample: a group
of two ordinary equal-operator leaves followed by one more ordinary
leaf. -/
def c2Fields : List MetaFieldI :=
  [.metaFields [.metaField (egLeaf "A" "a" "equal"),
                .metaField (egLeaf "B" "b" "equal")],
   .metaField (egLeaf "C" "c" "equal")]

/-- The comparison field list where the group is replaced by one ordinary
leaf. -/
def c2FieldsSingle : List MetaFieldI :=
  [.metaField (egLeaf "D" "d" "equal"),
   .metaField (egLeaf "C" "c" "equal")]

/-! ## Theorems.  Injectivity of the decimal rendering `Nat.repr` -/

theorem digitVal_digitChar (m : Nat) (h : m < 10) :
    digitVal (Nat.digitChar m) = m := by
  interval_cases m <;> rfl

theorem toDigitsCore_eq_natDigitsRef (fuel : Nat) :
    ∀ (n : Nat) (ds : List Char), n < fuel →
      Nat.toDigitsCore 10 fuel n ds = natDigitsRef n ++ ds := by
  induction fuel with
  | zero => intro n ds h; omega
  | succ f ih =>
    intro n ds h
    rw [Nat.toDigitsCore]
    by_cases h10 : n / 10 = 0
    · simp only [h10, if_true]
      rw [natDigitsRef, dif_pos h10]
      simp
    · simp only [h10, if_false]
      rw [ih (n / 10) _ (by omega)]
      conv_rhs => rw [natDigitsRef, dif_neg h10]
      simp

theorem natDigitsRef_foldl (n : Nat) :
    ∀ a : Nat,
      (natDigitsRef n).foldl (fun acc c => acc * 10 + digitVal c) a =
        a * 10 ^ (natDigitsRef n).length + n := by
  induction n using Nat.strong_induction_on with
  | _ n ih =>
    intro a
    by_cases h10 : n / 10 = 0
    · rw [natDigitsRef, dif_pos h10]
      simp [digitVal_digitChar (n % 10) (by omega)]
      omega
    · rw [natDigitsRef, dif_neg h10]
      rw [List.foldl_append]
      rw [ih (n / 10) (Nat.div_lt_self (by omega) (by omega)) a]
      simp only [List.foldl_cons, List.foldl_nil, List.length_append,
        List.length_cons, List.length_nil]
      rw [digitVal_digitChar (n % 10) (by omega)]
      have hlen : (natDigitsRef (n / 10)).length + 1 =
          (natDigitsRef (n / 10)).length + (0 + 1) := by omega
      rw [pow_succ]
      ring_nf
      omega

theorem natDigitsRef_injective : Function.Injective natDigitsRef := by
  intro m n h
  have hm := natDigitsRef_foldl m 0
  have hn := natDigitsRef_foldl n 0
  rw [h] at hm
  omega

theorem natDigitsRef_ne_nil (n : Nat) : natDigitsRef n ≠ [] := by
  rw [natDigitsRef]
  by_cases h10 : n / 10 = 0
  · simp [h10]
  · simp [h10]

theorem Nat.repr_eq_natDigitsRef (n : Nat) :
    Nat.repr n = ⟨natDigitsRef n⟩ := by
  show (Nat.toDigits 10 n).asString = _
  rw [Nat.toDigits, toDigitsCore_eq_natDigitsRef (n + 1) n [] (by omega)]
  simp [List.asString]

theorem natRepr_injective : Function.Injective Nat.repr := by
  intro m n h
  rw [Nat.repr_eq_natDigitsRef, Nat.repr_eq_natDigitsRef] at h
  exact natDigitsRef_injective (congrArg String.data h)

theorem natRepr_ne_empty (n : Nat) : Nat.repr n ≠ "" := by
  rw [Nat.repr_eq_natDigitsRef]
  intro h
  exact natDigitsRef_ne_nil n (congrArg String.data h)

/-- Appending distinct decimal suffixes to one base string gives distinct
strings. -/
theorem append_repr_injective (base : String) {i j : Nat}
    (h : base ++ Nat.repr i = base ++ Nat.repr j) : i = j := by
  apply natRepr_injective
  have : (base ++ Nat.repr i).data = (base ++ Nat.repr j).data := by rw [h]
  simp only [String.data_append] at this
  have := List.append_cancel_left this
  exact String.ext this

/-- A nonempty decimal suffix changes the string. -/
theorem append_repr_ne_base (base : String) (i : Nat) :
    base ++ Nat.repr i ≠ base := by
  intro h
  have : (base ++ Nat.repr i).data = base.data := by rw [h]
  simp only [String.data_append] at this
  have h2 : (base.data ++ (Nat.repr i).data).length = base.data.length := by
    rw [this]
  rw [List.length_append] at h2
  have : (Nat.repr i).data = [] := List.eq_nil_of_length_eq_zero (by omega)
  exact natRepr_ne_empty i (String.ext (by simp [this]))

/-! ## Size and fuel lemmas of the filter processor -/

theorem mfiSizeL_pos (l : List MetaFieldI) : 1 ≤ mfiSizeL l := by
  cases l with
  | nil => simp [mfiSizeL]
  | cons x xs => simp only [mfiSizeL]; omega

theorem mfiSize_ge (x : MetaFieldI) : 2 ≤ mfiSize x := by
  cases x with
  | metaField f => simp [mfiSize]
  | metaFields fs =>
    have := mfiSizeL_pos fs
    simp only [mfiSize]
    omega

theorem mfiSizeL_append (a b : List MetaFieldI) :
    mfiSizeL (a ++ b) + 1 = mfiSizeL a + mfiSizeL b := by
  induction a with
  | nil =>
    have h1 : mfiSizeL ([] : List MetaFieldI) = 1 := rfl
    simp only [List.nil_append]
    omega
  | cons x xs ih =>
    have h1 : mfiSizeL ((x :: xs) ++ b) =
        1 + mfiSize x + mfiSizeL (xs ++ b) := rfl
    have h2 : mfiSizeL (x :: xs) = 1 + mfiSize x + mfiSizeL xs := rfl
    omega

theorem processFieldsGo_irrel (f₁ : Nat) : ∀ (f₂ : Nat) (n t : String)
    (i : Nat) (fields : List MetaFieldI) (o : builderOptions),
    mfiSizeL fields ≤ f₁ → mfiSizeL fields ≤ f₂ →
    processFieldsGo f₁ n t i fields o = processFieldsGo f₂ n t i fields o := by
  induction f₁ with
  | zero =>
    intro f₂ n t i fields o h₁ _
    have := mfiSizeL_pos fields
    omega
  | succ k ih =>
    intro f₂ n t i fields o h₁ h₂
    cases f₂ with
    | zero =>
      have := mfiSizeL_pos fields
      omega
    | succ m =>
      cases fields with
      | nil => rfl
      | cons x rest =>
        cases x with
        | metaField f =>
          have hx := mfiSize_ge (MetaFieldI.metaField f)
          have hr := mfiSizeL_pos rest
          simp only [mfiSizeL] at h₁ h₂
          have hrest := ih m n t (i + 1) rest o (by omega) (by omega)
          simp only [processFieldsGo, hrest]
        | metaFields g =>
          have hr := mfiSizeL_pos rest
          simp only [mfiSizeL, mfiSize] at h₁ h₂
          have hrest := ih m n t (i + 1) rest o (by omega) (by omega)
          have hchild : ∀ (nm tn : String) (oo : builderOptions),
              processFieldsGo k nm tn 0 g oo =
                processFieldsGo m nm tn 0 g oo :=
            fun nm tn oo => ih m nm tn 0 g oo (by omega) (by omega)
          simp only [processFieldsGo, hrest, hchild]

theorem processFieldsGo_leaf_cons {fuel : Nat} {n t : String} {i : Nat}
    {f : MetaField} {rest : List MetaFieldI} {o : builderOptions}
    {r : List GoStmt × DeclMap × List GoField}
    (h : processFieldsGo (fuel + 1) n t i (.metaField f :: rest) o =
      some r) :
    ∃ bh ofh rt, f.buildFindArgumentsProcessor n o = some (bh, ofh) ∧
      processFieldsGo fuel n t (i + 1) rest o = some rt ∧
      r = (bh ++ rt.1, rt.2.1, ofh ++ rt.2.2) := by
  simp only [processFieldsGo, Option.bind_eq_bind, Option.bind_eq_some] at h
  obtain ⟨⟨bh, ofh⟩, hp, h⟩ := h
  obtain ⟨rt, hrt, h⟩ := h
  exact ⟨bh, ofh, rt, hp, hrt, (Option.some.inj h).symm⟩

theorem processFieldsGo_group_cons {fuel : Nat} {n t : String} {i : Nat}
    {g rest : List MetaFieldI} {o : builderOptions}
    {r : List GoStmt × DeclMap × List GoField}
    (h : processFieldsGo (fuel + 1) n t i (.metaFields g :: rest) o =
      some r) :
    ∃ nf rg rt, groupFieldName g = some nf ∧
      processFieldsGo fuel nf (t ++ Nat.repr i) 0 g
        { o with variableForColumnExpr :=
            o.variableForColumnExpr ++ Nat.repr i } = some rg ∧
      processFieldsGo fuel n t (i + 1) rest o = some rt ∧
      r = (groupVarStmt n o i nf :: rg.1 ++ groupJoinStmt o i :: rt.1,
           insertAll (mapInsert rg.2.1 (t ++ Nat.repr i)
             ⟨t ++ Nat.repr i, rg.2.2⟩) rt.2.1,
           (⟨[nf], .ident (t ++ Nat.repr i), none⟩ : GoField) :: rt.2.2) := by
  simp only [processFieldsGo, Option.bind_eq_bind, Option.bind_eq_some] at h
  obtain ⟨nf, hnf, h⟩ := h
  obtain ⟨⟨b2, d2, f2⟩, hg, h⟩ := h
  obtain ⟨⟨bT, dT, fT⟩, ht, h⟩ := h
  exact ⟨nf, (b2, d2, f2), (bT, dT, fT), hnf, hg, ht,
    (Option.some.inj h).symm⟩

/-! ## Append-counting lemmas -/

theorem isAppendTo_appendToVar (v w : String) (e : GoExpr) :
    isAppendTo v (appendToVar w e) = decide (w = v) := by
  show (decide (w = v) && decide (w = v)) = decide (w = v)
  exact Bool.and_self _

theorem stmtAppendsTo_appendToVar (v w : String) (e : GoExpr) :
    stmtAppendsTo v (appendToVar w e) = if w = v then 1 else 0 := by
  show (if isAppendTo v (appendToVar w e) = true then 1 else 0) = _
  rw [isAppendTo_appendToVar]
  by_cases h : w = v <;> simp [h]

theorem listAppendsTo_cons (v : String) (s : GoStmt) (ss : List GoStmt) :
    listAppendsTo v (s :: ss) = stmtAppendsTo v s + listAppendsTo v ss := by
  simp [listAppendsTo]

theorem listAppendsTo_append (v : String) (a b : List GoStmt) :
    listAppendsTo v (a ++ b) = listAppendsTo v a + listAppendsTo v b := by
  simp [listAppendsTo]

theorem appends_zero_of_targets (v : String) (stmts : List GoStmt)
    (h : ∀ s ∈ stmts, ∃ w e, s = appendToVar w e ∧ w ≠ v) :
    listAppendsTo v stmts = 0 ∧ stmts.filter (isAppendTo v) = [] := by
  induction stmts with
  | nil => exact ⟨rfl, rfl⟩
  | cons s ss ih =>
    obtain ⟨w, e, rfl, hw⟩ := h _ (List.mem_cons_self _ _)
    obtain ⟨ihl, ihf⟩ := ih (fun s hs => h s (List.mem_cons_of_mem _ hs))
    refine ⟨?_, ?_⟩
    · rw [listAppendsTo_cons, stmtAppendsTo_appendToVar, if_neg hw, ihl]
    · rw [List.filter_cons, isAppendTo_appendToVar]
      simp [hw, ihf]

theorem scalar_option_targets (b : iOperator)
    (optionName fieldName columnName : String) (ci ref : Bool)
    (o : builderOptions) :
    ∀ s ∈ b.makeScalarQueryOption optionName fieldName columnName ci ref o,
      ∃ w e, s = appendToVar w e ∧
        (w = o.variableForColumnExpr ∨ w = o.variableForColumnValues) := by
  intro s hs
  cases b <;>
    simp only [iOperator.makeScalarQueryOption, List.mem_cons,
      List.mem_singleton, List.not_mem_nil, or_false] at hs <;>
    rcases hs with rfl | rfl
  case opRegular.inl => exact ⟨_, _, rfl, Or.inl rfl⟩
  case opRegular.inr => exact ⟨_, _, rfl, Or.inr rfl⟩
  case opInline => exact ⟨_, _, rfl, Or.inl rfl⟩
  case opConstant => exact ⟨_, _, rfl, Or.inl rfl⟩

theorem array_option_targets (b : iOperator)
    (optionName fieldName columnName : String) (ci : Bool)
    (o : builderOptions) :
    ∀ s ∈ b.makeArrayQueryOption optionName fieldName columnName ci o,
      ∃ w e, s = appendToVar w e ∧
        (w = o.variableForColumnExpr ∨ w = o.variableForColumnValues) := by
  intro s hs
  simp only [iOperator.makeArrayQueryOption, List.mem_cons,
    List.mem_singleton, List.not_mem_nil, or_false] at hs
  rcases hs with rfl | rfl
  · exact ⟨_, _, rfl, Or.inl rfl⟩
  · exact ⟨_, _, rfl, Or.inr rfl⟩

theorem union_option_targets (b : iOperator) (valueExpr : GoExpr)
    (union : List String) (ci : Bool) (o : builderOptions) :
    ∀ s ∈ b.makeUnionQueryOption valueExpr union ci o,
      ∃ w e, s = appendToVar w e ∧
        (w = o.variableForColumnExpr ∨ w = o.variableForColumnValues) := by
  intro s hs
  simp only [iOperator.makeUnionQueryOption, List.mem_cons,
    List.mem_singleton, List.not_mem_nil, or_false] at hs
  rcases hs with rfl | rfl
  · exact ⟨_, _, rfl, Or.inl rfl⟩
  · exact ⟨_, _, rfl, Or.inr rfl⟩

theorem targets_appends_zero {v : String} {o : builderOptions}
    (h1 : v ≠ o.variableForColumnExpr) (h2 : v ≠ o.variableForColumnValues)
    {stmts : List GoStmt}
    (ht : ∀ s ∈ stmts, ∃ w e, s = appendToVar w e ∧
      (w = o.variableForColumnExpr ∨ w = o.variableForColumnValues)) :
    listAppendsTo v stmts = 0 ∧ stmts.filter (isAppendTo v) = [] := by
  refine appends_zero_of_targets v stmts (fun s hs => ?_)
  obtain ⟨w, e, rfl, hw⟩ := ht s hs
  refine ⟨w, e, rfl, ?_⟩
  rcases hw with rfl | rfl
  · exact fun hh => h1 hh.symm
  · exact fun hh => h2 hh.symm

theorem union_processor_appends {n a : String} {union : List String}
    {f : MetaField} {o : builderOptions} {body : List GoStmt}
    (hbody : makeFindProcessorForUnion n a union f o = some body)
    {v : String} (h1 : v ≠ o.variableForColumnExpr)
    (h2 : v ≠ o.variableForColumnValues) :
    listAppendsTo v body = 0 := by
  unfold makeFindProcessorForUnion at hbody
  by_cases hm : IsMult f.compareOperator = true
  · rw [if_pos hm] at hbody
    exact absurd hbody (by simp)
  · rw [if_neg hm] at hbody
    by_cases hstar : f.field.typ.isStar = true
    · rw [if_pos hstar] at hbody
      simp only [Option.bind_eq_bind, Option.bind_eq_some] at hbody
      obtain ⟨bop, hbop, hbody⟩ := hbody
      obtain rfl := (Option.some.inj hbody).symm
      rw [listAppendsTo_cons]
      have hz := targets_appends_zero h1 h2
        (union_option_targets bop
          (StarExpr (SimpleSelector n a)) union f.caseInsensitive o)
      simp [If, stmtAppendsTo, hz.2, listAppendsTo]
    · rw [if_neg hstar] at hbody
      simp only [Option.bind_eq_bind, Option.bind_eq_some] at hbody
      obtain ⟨bop, hbop, hbody⟩ := hbody
      obtain rfl := (Option.some.inj hbody).symm
      exact (targets_appends_zero h1 h2
        (union_option_targets bop (SimpleSelector n a) union
          f.caseInsensitive o)).1

theorem single_processor_appends {n a : String} {f : MetaField}
    {o : builderOptions} {body : List GoStmt}
    (hbody : makeFindProcessorForSingle n a f o = some body)
    {v : String} (h1 : v ≠ o.variableForColumnExpr)
    (h2 : v ≠ o.variableForColumnValues) :
    listAppendsTo v body = 0 := by
  unfold makeFindProcessorForSingle at hbody
  by_cases hstar : f.field.typ.isStar = true
  · rw [if_pos hstar] at hbody
    simp only [Option.bind_eq_bind, Option.bind_eq_some] at hbody
    obtain ⟨bop, hbop, hbody⟩ := hbody
    obtain rfl := (Option.some.inj hbody).symm
    rw [listAppendsTo_cons]
    have hz := targets_appends_zero h1 h2
      (scalar_option_targets bop n a f.sourceSql.sqlExpr
        f.caseInsensitive true o)
    simp [If, stmtAppendsTo, hz.2, listAppendsTo]
  · rw [if_neg hstar] at hbody
    simp only [Option.bind_eq_bind, Option.bind_eq_some] at hbody
    obtain ⟨bop, hbop, hbody⟩ := hbody
    obtain rfl := (Option.some.inj hbody).symm
    exact (targets_appends_zero h1 h2
      (scalar_option_targets bop n a f.sourceSql.sqlExpr
        f.caseInsensitive false o)).1

theorem const_processor_appends {n a : String} {f : MetaField}
    {o : builderOptions} {body : List GoStmt}
    (hbody : makeFindProcessorForConst n a f o = some body)
    {v : String} (h1 : v ≠ o.variableForColumnExpr)
    (h2 : v ≠ o.variableForColumnValues) :
    listAppendsTo v body = 0 := by
  unfold makeFindProcessorForConst at hbody
  simp only [Option.bind_eq_bind, Option.bind_eq_some] at hbody
  obtain ⟨bop, hbop, hbody⟩ := hbody
  obtain rfl := (Option.some.inj hbody).symm
  exact (targets_appends_zero h1 h2
    (scalar_option_targets _ n f.constant f.sourceSql.sqlExpr
      f.caseInsensitive false o)).1

/-- Every statement list a leaf field emits appends only into the fragment
accumulator and the argument accumulator of its builder options. -/
theorem leaf_body_appendsTo {f : MetaField} {n : String}
    {o : builderOptions} {bh : List GoStmt} {ofh : List GoField}
    (h : f.buildFindArgumentsProcessor n o = some (bh, ofh)) (v : String)
    (h1 : v ≠ o.variableForColumnExpr)
    (h2 : v ≠ o.variableForColumnValues) :
    listAppendsTo v bh = 0 := by
  unfold MetaField.buildFindArgumentsProcessor at h
  cases hn : f.field.names with
  | nil => rw [hn] at h; exact absurd h (by simp)
  | cons a t =>
    cases t with
    | cons b t2 => rw [hn] at h; exact absurd h (by simp)
    | nil =>
      rw [hn] at h
      cases hsrc : f.sourceSql with
      | someColumns union =>
        rw [hsrc] at h
        simp only [Option.bind_eq_bind, Option.bind_eq_some] at h
        obtain ⟨body, hbody, h⟩ := h
        injection h with h
        injection h with hbh hofh
        subst hbh
        exact union_processor_appends hbody h1 h2
      | column c =>
        rw [hsrc] at h
        by_cases hm : IsMult f.compareOperator = true
        · simp only [hm, if_true, Option.bind_eq_bind,
            Option.bind_eq_some] at h
          obtain ⟨bop, hbop, h⟩ := h
          injection h with h
          injection h with hbh hofh
          subst hbh
          exact (targets_appends_zero h1 h2
            (array_option_targets bop n a f.sourceSql.sqlExpr
              f.caseInsensitive o)).1
        · simp only [hm, if_false, Bool.false_eq_true] at h
          by_cases hc : f.constant ≠ ""
          · rw [if_pos hc] at h
            simp only [Option.bind_eq_bind, Option.bind_eq_some] at h
            obtain ⟨body, hbody, h⟩ := h
            injection h with h
            injection h with hbh hofh
            subst hbh
            exact const_processor_appends hbody h1 h2
          · rw [if_neg hc] at h
            simp only [Option.bind_eq_bind, Option.bind_eq_some] at h
            obtain ⟨body, hbody, h⟩ := h
            injection h with h
            injection h with hbh hofh
            subst hbh
            exact single_processor_appends hbody h1 h2
      | expression e =>
        rw [hsrc] at h
        by_cases hm : IsMult f.compareOperator = true
        · simp only [hm, if_true, Option.bind_eq_bind,
            Option.bind_eq_some] at h
          obtain ⟨bop, hbop, h⟩ := h
          injection h with h
          injection h with hbh hofh
          subst hbh
          exact (targets_appends_zero h1 h2
            (array_option_targets bop n a f.sourceSql.sqlExpr
              f.caseInsensitive o)).1
        · simp only [hm, if_false, Bool.false_eq_true] at h
          by_cases hc : f.constant ≠ ""
          · rw [if_pos hc] at h
            simp only [Option.bind_eq_bind, Option.bind_eq_some] at h
            obtain ⟨body, hbody, h⟩ := h
            injection h with h
            injection h with hbh hofh
            subst hbh
            exact const_processor_appends hbody h1 h2
          · rw [if_neg hc] at h
            simp only [Option.bind_eq_bind, Option.bind_eq_some] at h
            obtain ⟨body, hbody, h⟩ := h
            injection h with h
            injection h with hbh hofh
            subst hbh
            exact single_processor_appends hbody h1 h2

/-! ## Group runs contain only leaves; split lemma -/

theorem foldlM_groupNameStep_all_leaf (g : List MetaFieldI) :
    ∀ (acc nf : String), g.foldlM groupNameStep acc = some nf →
      ∀ x ∈ g, ∃ mf, x = .metaField mf := by
  induction g with
  | nil => intro acc nf h x hx; cases hx
  | cons y ys ih =>
    intro acc nf h x hx
    rw [List.foldlM_cons] at h
    simp only [Option.bind_eq_bind, Option.bind_eq_some] at h
    obtain ⟨acc', hstep, h⟩ := h
    rcases List.mem_cons.mp hx with rfl | hx'
    · cases x with
      | metaField mf => exact ⟨mf, rfl⟩
      | metaFields gg =>
        simp [groupNameStep, MetaFieldI.GetField] at hstep
    · exact ih acc' nf h x hx'

theorem groupFieldName_all_leaf {g : List MetaFieldI} {nf : String}
    (h : groupFieldName g = some nf) :
    ∀ x ∈ g, ∃ mf, x = .metaField mf :=
  foldlM_groupNameStep_all_leaf g "Sub" nf h

/-- On a leaf-only list the processor produces no shape declaration entries
and appends only into the two accumulators of its options. -/
theorem allLeaf_run (fields : List MetaFieldI)
    (hleaf : ∀ x ∈ fields, ∃ mf, x = .metaField mf) :
    ∀ (fuel : Nat) (n t : String) (i : Nat) (o : builderOptions) r,
      processFieldsGo fuel n t i fields o = some r →
      r.2.1 = [] ∧ ∀ v, v ≠ o.variableForColumnExpr →
        v ≠ o.variableForColumnValues → listAppendsTo v r.1 = 0 := by
  induction fields with
  | nil =>
    intro fuel n t i o r h
    cases fuel with
    | zero => exact absurd h (by simp [processFieldsGo])
    | succ k =>
      have hr : r = ([], [], []) := (Option.some.inj h).symm
      subst hr
      exact ⟨rfl, fun v _ _ => rfl⟩
  | cons x rest ih =>
    intro fuel n t i o r h
    cases fuel with
    | zero => exact absurd h (by simp [processFieldsGo])
    | succ k =>
      obtain ⟨mf, rfl⟩ := hleaf x (List.mem_cons_self _ _)
      obtain ⟨bh, ofh, rt, hb, hrt, rfl⟩ := processFieldsGo_leaf_cons h
      obtain ⟨hd, ha⟩ :=
        ih (fun y hy => hleaf y (List.mem_cons_of_mem _ hy)) k n t (i + 1)
          o rt hrt
      refine ⟨hd, fun v hv1 hv2 => ?_⟩
      show listAppendsTo v (bh ++ rt.1) = 0
      rw [listAppendsTo_append, leaf_body_appendsTo hb v hv1 hv2,
        ha v hv1 hv2]

theorem processFieldsGo_split (a : List MetaFieldI) :
    ∀ (fuel : Nat) (n t : String) (i : Nat) (b : List MetaFieldI)
      (o : builderOptions) r,
      mfiSizeL (a ++ b) ≤ fuel →
      processFieldsGo fuel n t i (a ++ b) o = some r →
      ∃ ra rb, processFieldsGo fuel n t i a o = some ra ∧
        processFieldsGo fuel n t (i + a.length) b o = some rb ∧
        r.1 = ra.1 ++ rb.1 ∧ r.2.2 = ra.2.2 ++ rb.2.2 := by
  induction a with
  | nil =>
    intro fuel n t i b o r hsz h
    cases fuel with
    | zero =>
      have h1 : mfiSizeL ([] ++ b) = mfiSizeL b := rfl
      have := mfiSizeL_pos b
      omega
    | succ k =>
      exact ⟨([], [], []), r, rfl, h, rfl, rfl⟩
  | cons x xs ih =>
    intro fuel n t i b o r hsz h
    cases fuel with
    | zero =>
      have := mfiSizeL_pos ((x :: xs) ++ b)
      omega
    | succ k =>
      have hx := mfiSize_ge x
      have hcons : mfiSizeL ((x :: xs) ++ b) =
          1 + mfiSize x + mfiSizeL (xs ++ b) := rfl
      have happ := mfiSizeL_append xs b
      have hxs := mfiSizeL_pos xs
      have hb := mfiSizeL_pos b
      have hsz' : mfiSizeL (xs ++ b) ≤ k := by omega
      have hlen : i + (x :: xs).length = i + 1 + xs.length := by
        simp [List.length_cons]
        omega
      cases x with
      | metaField f =>
        obtain ⟨bh, ofh, rt, hbf, hrt, rfl⟩ := processFieldsGo_leaf_cons h
        obtain ⟨⟨ra1, ra2, ra3⟩, rb', hra, hrb, hb1, hb2⟩ :=
          ih k n t (i + 1) b o rt hsz' hrt
        refine ⟨(bh ++ ra1, ra2, ofh ++ ra3), rb', ?_, ?_, ?_, ?_⟩
        · simp only [processFieldsGo, Option.bind_eq_bind, hbf, hra,
            Option.some_bind]
        · rw [hlen,
            processFieldsGo_irrel (k + 1) k n t (i + 1 + xs.length) b o
              (by omega) (by omega)]
          exact hrb
        · show bh ++ rt.1 = (bh ++ ra1) ++ rb'.1
          rw [hb1, List.append_assoc]
        · show ofh ++ rt.2.2 = (ofh ++ ra3) ++ rb'.2.2
          rw [hb2, List.append_assoc]
      | metaFields g =>
        obtain ⟨nf, rg, rt, hnf, hg, hrt, rfl⟩ := processFieldsGo_group_cons h
        obtain ⟨⟨ra1, ra2, ra3⟩, rb', hra, hrb, hb1, hb2⟩ :=
          ih k n t (i + 1) b o rt hsz' hrt
        refine ⟨(groupVarStmt n o i nf :: rg.1 ++ groupJoinStmt o i :: ra1,
            insertAll (mapInsert rg.2.1 (t ++ Nat.repr i)
              ⟨t ++ Nat.repr i, rg.2.2⟩) ra2,
            (⟨[nf], .ident (t ++ Nat.repr i), none⟩ : GoField) :: ra3),
          rb', ?_, ?_, ?_, ?_⟩
        · simp only [processFieldsGo, Option.bind_eq_bind, hnf, hg, hra,
            Option.some_bind]
          rfl
        · rw [hlen,
            processFieldsGo_irrel (k + 1) k n t (i + 1 + xs.length) b o
              (by omega) (by omega)]
          exact hrb
        · show groupVarStmt n o i nf :: rg.1 ++ groupJoinStmt o i :: rt.1 =
            (groupVarStmt n o i nf :: rg.1 ++ groupJoinStmt o i :: ra1) ++
              rb'.1
          rw [hb1]
          simp [List.append_assoc]
        · show (⟨[nf], .ident (t ++ Nat.repr i), none⟩ : GoField) ::
              rt.2.2 =
            ((⟨[nf], .ident (t ++ Nat.repr i), none⟩ : GoField) :: ra3) ++
              rb'.2.2
          rw [hb2]
          simp

/-- Shared decomposition of a successful processor run around a group at
position `pre.length`: the fresh names, the child run, the prefix and
suffix runs, the exact body layout and the append discipline of the child
body. -/
theorem group_run_decomposition (n t : String)
    (pre g post : List MetaFieldI) (o : builderOptions)
    (r : List GoStmt × DeclMap × List GoField)
    (h : BuildFindArgumentsProcessor n t (pre ++ .metaFields g :: post) o =
      some r) :
    ∃ nf rg rpre rpost,
      groupFieldName g = some nf ∧
      (∀ x ∈ g, ∃ mf, x = .metaField mf) ∧
      BuildFindArgumentsProcessor nf (t ++ Nat.repr pre.length) g
        { o with variableForColumnExpr :=
            o.variableForColumnExpr ++ Nat.repr pre.length } = some rg ∧
      processFieldsGo (mfiSizeL pre) n t 0 pre o = some rpre ∧
      processFieldsGo (mfiSizeL post) n t (pre.length + 1) post o =
        some rpost ∧
      r.1 = rpre.1 ++ groupVarStmt n o pre.length nf :: rg.1 ++
        groupJoinStmt o pre.length :: rpost.1 ∧
      (∀ v, v ≠ o.variableForColumnExpr ++ Nat.repr pre.length →
        v ≠ o.variableForColumnValues → listAppendsTo v rg.1 = 0) := by
  unfold BuildFindArgumentsProcessor at h
  cases hrun : processFieldsGo
      (mfiSizeL (pre ++ .metaFields g :: post)) n t 0
      (pre ++ .metaFields g :: post) o with
  | none => rw [hrun] at h; exact absurd h (by simp)
  | some r0 =>
    rw [hrun] at h
    have hr := (Option.some.inj h).symm
    have hpos := mfiSizeL_pos (pre ++ .metaFields g :: post)
    have happ := mfiSizeL_append pre (.metaFields g :: post)
    have hgc : mfiSizeL (MetaFieldI.metaFields g :: post) =
        1 + (1 + mfiSizeL g) + mfiSizeL post := rfl
    have hprepos := mfiSizeL_pos pre
    have hpostpos := mfiSizeL_pos post
    have hgpos := mfiSizeL_pos g
    obtain ⟨rpre0, rmid, hpre, hmid, hbody, -⟩ :=
      processFieldsGo_split pre _ n t 0 (.metaFields g :: post) o r0
        (le_refl _) hrun
    obtain ⟨k, hk⟩ : ∃ k,
        mfiSizeL (pre ++ .metaFields g :: post) = k + 1 :=
      ⟨mfiSizeL (pre ++ .metaFields g :: post) - 1, by omega⟩
    rw [hk, Nat.zero_add] at hmid
    obtain ⟨nf, rg0, rt0, hnf, hg0, ht0, hrmid⟩ :=
      processFieldsGo_group_cons hmid
    have hleaf := groupFieldName_all_leaf hnf
    have hszg : mfiSizeL g ≤ k := by omega
    have hszpost : mfiSizeL post ≤ k := by omega
    have hszpre : mfiSizeL pre ≤ k + 1 := by omega
    refine ⟨nf,
      (rg0.1, mapInsert rg0.2.1 (t ++ Nat.repr pre.length)
        ⟨t ++ Nat.repr pre.length, rg0.2.2⟩,
       [⟨[nf], .ident (t ++ Nat.repr pre.length), none⟩]),
      rpre0, rt0, hnf, hleaf, ?_, ?_, ?_, ?_, ?_⟩
    · unfold BuildFindArgumentsProcessor
      rw [processFieldsGo_irrel (mfiSizeL g) k nf (t ++ Nat.repr pre.length)
        0 g _ (le_refl _) hszg, hg0]
      rfl
    · rw [processFieldsGo_irrel (mfiSizeL pre) (k + 1) n t 0 pre o
        (le_refl _) hszpre]
      rw [← hk]
      exact hpre
    · rw [processFieldsGo_irrel (mfiSizeL post) k n t (pre.length + 1) post
        o (le_refl _) hszpost]
      exact ht0
    · rw [hr, hbody, hrmid]
      simp
    · intro v hv1 hv2
      exact (allLeaf_run g hleaf k nf (t ++ Nat.repr pre.length) 0 _ rg0
        hg0).2 v hv1 hv2

/-! ## Claim C1: group recursion, fresh names, single joined fragment -/

/-- C1: for a field list with a group at position `i = pre.length`, the
processor recurses with the fresh option-shape name `t ++ i` and the fresh
fragment accumulator name `colExpr ++ i` (decimal suffix of the position),
and the emitted body is the prefix statements, the group var statement,
the child body, the closing append of
`"(" + strings.Join(child, " or ") + ")"` into the parent accumulator and
the suffix statements; over the whole group segment exactly one fragment
is appended to the parent accumulator, namely that closing join. -/
theorem c1_group_fresh_names_single_fragment (n t : String)
    (pre g post : List MetaFieldI) (o : builderOptions)
    (r : List GoStmt × DeclMap × List GoField)
    (h : BuildFindArgumentsProcessor n t (pre ++ .metaFields g :: post) o =
      some r)
    (hvals : o.variableForColumnValues ≠ o.variableForColumnExpr) :
    ∃ nf rg rpre rpost,
      groupFieldName g = some nf ∧
      BuildFindArgumentsProcessor nf (t ++ Nat.repr pre.length) g
        { o with variableForColumnExpr :=
            o.variableForColumnExpr ++ Nat.repr pre.length } = some rg ∧
      processFieldsGo (mfiSizeL pre) n t 0 pre o = some rpre ∧
      processFieldsGo (mfiSizeL post) n t (pre.length + 1) post o =
        some rpost ∧
      r.1 = rpre.1 ++ groupVarStmt n o pre.length nf :: rg.1 ++
        groupJoinStmt o pre.length :: rpost.1 ∧
      groupJoinStmt o pre.length = appendToVar o.variableForColumnExpr
        (AddExpr (stringConstantExpr "(")
          [Call StringsJoinFn
            [.ident (o.variableForColumnExpr ++ Nat.repr pre.length),
             stringConstantExpr " or "],
           stringConstantExpr ")"]) ∧
      listAppendsTo o.variableForColumnExpr
        (groupVarStmt n o pre.length nf :: rg.1 ++
          [groupJoinStmt o pre.length]) = 1 := by
  obtain ⟨nf, rg, rpre, rpost, hnf, hleaf, hrg, hpre, hpost, hbody, happ⟩ :=
    group_run_decomposition n t pre g post o r h
  refine ⟨nf, rg, rpre, rpost, hnf, hrg, hpre, hpost, hbody, rfl, ?_⟩
  rw [listAppendsTo_append, listAppendsTo_cons]
  have h1 : stmtAppendsTo o.variableForColumnExpr
      (groupVarStmt n o pre.length nf) = 0 := rfl
  have h2 : listAppendsTo o.variableForColumnExpr rg.1 = 0 :=
    happ o.variableForColumnExpr
      (fun hh =>
        append_repr_ne_base o.variableForColumnExpr pre.length hh.symm)
      (fun hh => hvals hh.symm)
  have h3 : listAppendsTo o.variableForColumnExpr
      [groupJoinStmt o pre.length] = 1 := by
    rw [listAppendsTo_cons]
    show stmtAppendsTo _ (appendToVar o.variableForColumnExpr _) + _ = 1
    rw [stmtAppendsTo_appendToVar, if_pos rfl]
    rfl
  omega

/-- Witness for C1 at the concrete two-leaf group followed by one leaf. -/
theorem c1_group_fresh_names_single_fragment_witness :
    ∃ nf rg rpre rpost,
      groupFieldName [.metaField (egLeaf "A" "a" "equal"),
        .metaField (egLeaf "B" "b" "equal")] = some nf ∧
      BuildFindArgumentsProcessor nf ("TOpt" ++ Nat.repr 0)
        [.metaField (egLeaf "A" "a" "equal"),
         .metaField (egLeaf "B" "b" "equal")]
        { FindBuilderOptions with variableForColumnExpr :=
            FindBuilderOptions.variableForColumnExpr ++ Nat.repr 0 } =
        some rg ∧
      processFieldsGo (mfiSizeL []) "opt" "TOpt" 0 [] FindBuilderOptions =
        some rpre ∧
      processFieldsGo (mfiSizeL [.metaField (egLeaf "C" "c" "equal")])
        "opt" "TOpt" 1 [.metaField (egLeaf "C" "c" "equal")]
        FindBuilderOptions = some rpost ∧
      ((BuildFindArgumentsProcessor "opt" "TOpt" c2Fields
        FindBuilderOptions).getD ([], [], [])).1 =
        rpre.1 ++ groupVarStmt "opt" FindBuilderOptions 0 nf :: rg.1 ++
          groupJoinStmt FindBuilderOptions 0 :: rpost.1 ∧
      groupJoinStmt FindBuilderOptions 0 =
        appendToVar FindBuilderOptions.variableForColumnExpr
          (AddExpr (stringConstantExpr "(")
            [Call StringsJoinFn
              [.ident (FindBuilderOptions.variableForColumnExpr ++
                Nat.repr 0),
               stringConstantExpr " or "],
             stringConstantExpr ")"]) ∧
      listAppendsTo FindBuilderOptions.variableForColumnExpr
        (groupVarStmt "opt" FindBuilderOptions 0 nf :: rg.1 ++
          [groupJoinStmt FindBuilderOptions 0]) = 1 := by
  have := c1_group_fresh_names_single_fragment "opt" "TOpt" []
    [.metaField (egLeaf "A" "a" "equal"), .metaField (egLeaf "B" "b" "equal")]
    [.metaField (egLeaf "C" "c" "equal")] FindBuilderOptions
    ((BuildFindArgumentsProcessor "opt" "TOpt" c2Fields
      FindBuilderOptions).getD ([], [], []))
    (by rfl) (by decide)
  simpa using this

/-! ## Claim C2: argument numbering across a group -/

/-- C2 counterexample: on a group of two ordinary equal-operator leaves
followed by one ordinary leaf, the generated body has eight statements;
its first six are the group segment (var statement, two statements per
child leaf, closing join), which contains two appends into the shared
argument accumulator `args` — not one, as the claim would have after a
single ordinary predicate; the whole body appends three arguments, while
the variant with the group replaced by one ordinary leaf appends two. -/
theorem c2_counterexample :
    (BuildFindArgumentsProcessor "opt" "TOpt" c2Fields
        FindBuilderOptions).map
      (fun r => (r.1.length, listAppendsTo "args" (r.1.take 6),
        listAppendsTo "args" r.1)) = some (8, 2, 3) ∧
    (BuildFindArgumentsProcessor "opt" "TOpt" c2FieldsSingle
        FindBuilderOptions).map
      (fun r => listAppendsTo "args" r.1) = some 2 :=
  ⟨rfl, rfl⟩

/-- C2 amended: recursing into a group leaves the statements emitted before
the group untouched (the prefix of the body is exactly the run of the
prefix fields alone), and after the group the argument numbering resumes
advanced by the number of argument appends the child body emits into the
shared argument accumulator — the group segment itself (var statement and
closing join) adds no argument append, but each argument-consuming child
leaf does, so a group advances the counter by one only when its children
emit exactly one argument append. -/
theorem c2_group_argument_numbering (n t : String)
    (pre g post : List MetaFieldI) (o : builderOptions)
    (r : List GoStmt × DeclMap × List GoField)
    (h : BuildFindArgumentsProcessor n t (pre ++ .metaFields g :: post) o =
      some r)
    (hvals : o.variableForColumnValues ≠ o.variableForColumnExpr) :
    ∃ nf rg rpre rpost,
      groupFieldName g = some nf ∧
      BuildFindArgumentsProcessor nf (t ++ Nat.repr pre.length) g
        { o with variableForColumnExpr :=
            o.variableForColumnExpr ++ Nat.repr pre.length } = some rg ∧
      processFieldsGo (mfiSizeL pre) n t 0 pre o = some rpre ∧
      processFieldsGo (mfiSizeL post) n t (pre.length + 1) post o =
        some rpost ∧
      r.1 = rpre.1 ++ (groupVarStmt n o pre.length nf :: rg.1 ++
        [groupJoinStmt o pre.length]) ++ rpost.1 ∧
      listAppendsTo o.variableForColumnValues
        (groupVarStmt n o pre.length nf :: rg.1 ++
          [groupJoinStmt o pre.length]) =
        listAppendsTo o.variableForColumnValues rg.1 := by
  obtain ⟨nf, rg, rpre, rpost, hnf, hleaf, hrg, hpre, hpost, hbody, happ⟩ :=
    group_run_decomposition n t pre g post o r h
  refine ⟨nf, rg, rpre, rpost, hnf, hrg, hpre, hpost, ?_, ?_⟩
  · rw [hbody]
    simp
  · rw [listAppendsTo_append, listAppendsTo_cons]
    have h1 : stmtAppendsTo o.variableForColumnValues
        (groupVarStmt n o pre.length nf) = 0 := rfl
    have h3 : listAppendsTo o.variableForColumnValues
        [groupJoinStmt o pre.length] = 0 := by
      rw [listAppendsTo_cons]
      show stmtAppendsTo _ (appendToVar o.variableForColumnExpr _) + _ = 0
      rw [stmtAppendsTo_appendToVar, if_neg (fun hh => hvals hh.symm)]
      rfl
    omega

/-- Witness for C2 at the concrete two-leaf group followed by one leaf. -/
theorem c2_group_argument_numbering_witness :
    ∃ nf rg rpre rpost,
      groupFieldName [.metaField (egLeaf "A" "a" "equal"),
        .metaField (egLeaf "B" "b" "equal")] = some nf ∧
      BuildFindArgumentsProcessor nf ("TOpt" ++ Nat.repr 0)
        [.metaField (egLeaf "A" "a" "equal"),
         .metaField (egLeaf "B" "b" "equal")]
        { FindBuilderOptions with variableForColumnExpr :=
            FindBuilderOptions.variableForColumnExpr ++ Nat.repr 0 } =
        some rg ∧
      processFieldsGo (mfiSizeL []) "opt" "TOpt" 0 [] FindBuilderOptions =
        some rpre ∧
      processFieldsGo (mfiSizeL [.metaField (egLeaf "C" "c" "equal")])
        "opt" "TOpt" 1 [.metaField (egLeaf "C" "c" "equal")]
        FindBuilderOptions = some rpost ∧
      ((BuildFindArgumentsProcessor "opt" "TOpt" c2Fields
        FindBuilderOptions).getD ([], [], [])).1 =
        rpre.1 ++ (groupVarStmt "opt" FindBuilderOptions 0 nf :: rg.1 ++
          [groupJoinStmt FindBuilderOptions 0]) ++ rpost.1 ∧
      listAppendsTo FindBuilderOptions.variableForColumnValues
        (groupVarStmt "opt" FindBuilderOptions 0 nf :: rg.1 ++
          [groupJoinStmt FindBuilderOptions 0]) =
        listAppendsTo FindBuilderOptions.variableForColumnValues rg.1 := by
  have := c2_group_argument_numbering "opt" "TOpt" []
    [.metaField (egLeaf "A" "a" "equal"), .metaField (egLeaf "B" "b" "equal")]
    [.metaField (egLeaf "C" "c" "equal")] FindBuilderOptions
    ((BuildFindArgumentsProcessor "opt" "TOpt" c2Fields
      FindBuilderOptions).getD ([], [], []))
    (by rfl) (by decide)
  simpa using this

/-! ## Claim C4: option-shape count and distinctness -/

theorem groupIdx_ge (l : List MetaFieldI) :
    ∀ (i : Nat), ∀ j ∈ groupIdx i l, i ≤ j := by
  induction l with
  | nil => intro i j hj; cases hj
  | cons x rest ih =>
    intro i j hj
    cases x with
    | metaField f =>
      have := ih (i + 1) j hj
      omega
    | metaFields g =>
      rcases List.mem_cons.mp hj with rfl | hj'
      · exact le_refl j
      · have := ih (i + 1) j hj'
        omega

theorem groupIdx_pairwise (l : List MetaFieldI) :
    ∀ (i : Nat), (groupIdx i l).Pairwise (· < ·) := by
  induction l with
  | nil => intro i; exact List.Pairwise.nil
  | cons x rest ih =>
    intro i
    cases x with
    | metaField f => exact ih (i + 1)
    | metaFields g =>
      refine List.Pairwise.cons ?_ (ih (i + 1))
      intro j hj
      have := groupIdx_ge rest (i + 1) j hj
      omega

theorem countGroups_allLeaf (l : List MetaFieldI)
    (h : ∀ x ∈ l, ∃ mf, x = .metaField mf) : countGroups l = 0 := by
  induction l with
  | nil => rfl
  | cons x rest ih =>
    obtain ⟨mf, rfl⟩ := h x (List.mem_cons_self _ _)
    have : countGroups (MetaFieldI.metaField mf :: rest) =
        countGroups1 (MetaFieldI.metaField mf) + countGroups rest := rfl
    rw [this, ih (fun y hy => h y (List.mem_cons_of_mem _ hy))]
    rfl

theorem mapInsert_not_mem {m : DeclMap} {k : String}
    (h : k ∉ m.map Prod.fst) (v : GoTypeSpec) :
    mapInsert m k v = m ++ [(k, v)] := by
  unfold mapInsert
  rw [if_neg]
  intro hc
  rw [List.any_eq_true] at hc
  obtain ⟨p, hp, hpk⟩ := hc
  exact h (List.mem_map.mpr ⟨p, hp, by simpa using hpk⟩)

theorem insertAll_disjoint {es : DeclMap} :
    ∀ {m : DeclMap}, (es.map Prod.fst).Nodup →
    (∀ k ∈ es.map Prod.fst, k ∉ m.map Prod.fst) →
    insertAll m es = m ++ es := by
  induction es with
  | nil => intro m _ _; simp [insertAll]
  | cons e rest ih =>
    intro m hnd hdisj
    have hmem : e.1 ∉ m.map Prod.fst := hdisj e.1 (by simp)
    have hstep : mapInsert m e.1 e.2 = m ++ [e] :=
      mapInsert_not_mem hmem e.2
    have h1 : insertAll m (e :: rest) =
        insertAll (mapInsert m e.1 e.2) rest := rfl
    have hnd2 : (rest.map Prod.fst).Nodup := by
      rw [List.map_cons] at hnd
      exact hnd.of_cons
    have hne : ∀ k ∈ rest.map Prod.fst, k ≠ e.1 := by
      intro k hk hc
      subst hc
      rw [List.map_cons] at hnd
      exact (List.nodup_cons.mp hnd).1 hk
    have hdisj2 : ∀ k ∈ rest.map Prod.fst,
        k ∉ (m ++ [e]).map Prod.fst := by
      intro k hk hc
      rw [List.map_append] at hc
      rcases List.mem_append.mp hc with hc2 | hc2
      · exact hdisj k
          (by rw [List.map_cons]; exact List.mem_cons_of_mem _ hk) hc2
      · simp only [List.map_cons, List.map_nil,
          List.mem_singleton] at hc2
        exact hne k hk hc2
    rw [h1, hstep, ih hnd2 hdisj2]
    simp

/-- The shape-declaration keys of a successful run are the generated names
of the group positions, and the groups of a successful run are counted by
their positions. -/
theorem run_decls (fields : List MetaFieldI) :
    ∀ (fuel : Nat) (n t : String) (i : Nat) (o : builderOptions) r,
      processFieldsGo fuel n t i fields o = some r →
      r.2.1.map Prod.fst =
        (groupIdx i fields).map (fun j => t ++ Nat.repr j) ∧
      countGroups fields = (groupIdx i fields).length := by
  induction fields with
  | nil =>
    intro fuel n t i o r h
    cases fuel with
    | zero => exact absurd h (by simp [processFieldsGo])
    | succ k =>
      have hr : r = ([], [], []) := (Option.some.inj h).symm
      subst hr
      exact ⟨rfl, rfl⟩
  | cons x rest ih =>
    intro fuel n t i o r h
    cases fuel with
    | zero => exact absurd h (by simp [processFieldsGo])
    | succ k =>
      cases x with
      | metaField f =>
        obtain ⟨bh, ofh, rt, hb, hrt, rfl⟩ := processFieldsGo_leaf_cons h
        obtain ⟨hk, hc⟩ := ih k n t (i + 1) o rt hrt
        have hgi : groupIdx i (MetaFieldI.metaField f :: rest) =
            groupIdx (i + 1) rest := rfl
        have hcg : countGroups (MetaFieldI.metaField f :: rest) =
            countGroups1 (MetaFieldI.metaField f) + countGroups rest := rfl
        rw [hgi, hcg]
        refine ⟨hk, ?_⟩
        rw [hc]
        simp [countGroups1]
      | metaFields g =>
        obtain ⟨nf, rg, rt, hnf, hg, hrt, rfl⟩ :=
          processFieldsGo_group_cons h
        obtain ⟨hk, hc⟩ := ih k n t (i + 1) o rt hrt
        have hleaf := groupFieldName_all_leaf hnf
        have hchild : rg.2.1 = [] :=
          (allLeaf_run g hleaf k nf (t ++ Nat.repr i) 0 _ rg hg).1
        have hinj : Function.Injective (fun j => t ++ Nat.repr j) :=
          fun a b hab => append_repr_injective t hab
        have hnd : ((groupIdx (i + 1) rest).map
            (fun j => t ++ Nat.repr j)).Nodup :=
          List.Nodup.map hinj
            (show (groupIdx (i + 1) rest).Nodup from
              List.Pairwise.imp (fun hlt => Nat.ne_of_lt hlt)
                (groupIdx_pairwise rest (i + 1)))
        have hdisj : ∀ kk ∈ rt.2.1.map Prod.fst,
            kk ∉ ([(t ++ Nat.repr i,
              (⟨t ++ Nat.repr i, rg.2.2⟩ : GoTypeSpec))] : DeclMap).map
                Prod.fst := by
          intro kk hkk
          rw [hk] at hkk
          obtain ⟨j, hj, rfl⟩ := List.mem_map.mp hkk
          simp only [List.map_cons, List.map_nil, List.mem_singleton]
          intro hc
          have hij := append_repr_injective t hc
          have := groupIdx_ge rest (i + 1) j hj
          omega
        have hins : insertAll (mapInsert rg.2.1 (t ++ Nat.repr i)
            ⟨t ++ Nat.repr i, rg.2.2⟩) rt.2.1 =
            [(t ++ Nat.repr i, ⟨t ++ Nat.repr i, rg.2.2⟩)] ++ rt.2.1 := by
          rw [hchild]
          have hmi : mapInsert ([] : DeclMap) (t ++ Nat.repr i)
              ⟨t ++ Nat.repr i, rg.2.2⟩ =
              [(t ++ Nat.repr i, ⟨t ++ Nat.repr i, rg.2.2⟩)] := rfl
          rw [hmi, insertAll_disjoint (by rw [hk]; exact hnd) hdisj]
        constructor
        · show (insertAll (mapInsert rg.2.1 (t ++ Nat.repr i)
            ⟨t ++ Nat.repr i, rg.2.2⟩) rt.2.1).map Prod.fst = _
          rw [hins]
          have hgi : groupIdx i (MetaFieldI.metaFields g :: rest) =
              i :: groupIdx (i + 1) rest := rfl
          rw [hgi]
          simp [hk]
        · have hcg : countGroups (MetaFieldI.metaFields g :: rest) =
              (1 + countGroups g) + countGroups rest := rfl
          have hgi : groupIdx i (MetaFieldI.metaFields g :: rest) =
              i :: groupIdx (i + 1) rest := rfl
          rw [hcg, hgi, countGroups_allLeaf g hleaf, hc]
          simp only [List.length_cons]
          omega

/-- C4: a successful run on a non-empty field list declares exactly one
option shape plus one per group (counted recursively, which a successful
run confines to direct children, nested groups panicking in the name
derivation), and the generated shape names are pairwise distinct. -/
theorem c4_shape_count_distinct (n t : String) (fields : List MetaFieldI)
    (o : builderOptions) (r : List GoStmt × DeclMap × List GoField)
    (hne : fields ≠ [])
    (h : BuildFindArgumentsProcessor n t fields o = some r) :
    r.2.1.length = 1 + countGroups fields ∧
    (r.2.1.map Prod.fst).Nodup := by
  unfold BuildFindArgumentsProcessor at h
  cases hrun : processFieldsGo (mfiSizeL fields) n t 0 fields o with
  | none => rw [hrun] at h; exact absurd h (by simp)
  | some r0 =>
    rw [hrun] at h
    have hr := (Option.some.inj h).symm
    obtain ⟨hk, hc⟩ := run_decls fields _ n t 0 o r0 hrun
    have hmem : t ∉ r0.2.1.map Prod.fst := by
      rw [hk]
      intro hc2
      obtain ⟨j, hj, hjeq⟩ := List.mem_map.mp hc2
      exact append_repr_ne_base t j hjeq
    have hins : mapInsert r0.2.1 t ⟨t, r0.2.2⟩ =
        r0.2.1 ++ [(t, ⟨t, r0.2.2⟩)] := mapInsert_not_mem hmem _
    have hlen : r0.2.1.length = countGroups fields := by
      have := congrArg List.length hk
      simpa using this.trans (by simp [hc])
    constructor
    · rw [hr]
      show (mapInsert r0.2.1 t ⟨t, r0.2.2⟩).length = 1 + countGroups fields
      rw [hins]
      simp [hlen]
      omega
    · rw [hr]
      show ((mapInsert r0.2.1 t ⟨t, r0.2.2⟩).map Prod.fst).Nodup
      rw [hins]
      have hinj : Function.Injective (fun j => t ++ Nat.repr j) :=
        fun a b hab => append_repr_injective t hab
      have hnd : (r0.2.1.map Prod.fst).Nodup := by
        rw [hk]
        exact List.Nodup.map hinj
          (show (groupIdx 0 fields).Nodup from
            List.Pairwise.imp (fun hlt => Nat.ne_of_lt hlt)
              (groupIdx_pairwise fields 0))
      rw [List.map_append]
      rw [List.nodup_append]
      refine ⟨hnd, by simp, ?_⟩
      intro a ha hb
      simp only [List.map_cons, List.map_nil, List.mem_singleton] at hb
      subst hb
      exact hmem ha

/-- Witness for C4 at the concrete two-leaf group followed by one leaf. -/
theorem c4_shape_count_distinct_witness :
    ((BuildFindArgumentsProcessor "opt" "TOpt" c2Fields
        FindBuilderOptions).getD ([], [], [])).2.1.length =
      1 + countGroups c2Fields ∧
    (((BuildFindArgumentsProcessor "opt" "TOpt" c2Fields
        FindBuilderOptions).getD ([], [], [])).2.1.map Prod.fst).Nodup :=
  c4_shape_count_distinct "opt" "TOpt" c2Fields FindBuilderOptions
    ((BuildFindArgumentsProcessor "opt" "TOpt" c2Fields
      FindBuilderOptions).getD ([], [], []))
    (List.cons_ne_nil _ _) (by rfl)

/-! ## Claim C6: input-value processing order and shape -/

theorem makeValuePicker_snd (tags : List String) (e1 e2 : GoExpr) :
    (makeValuePicker tags e1).2 = (makeValuePicker tags e2).2 := by
  unfold makeValuePicker
  cases hc : tags.contains tagGenerate
  · simp only [hc, Bool.false_eq_true, if_false]
  · simp only [hc, if_true]

theorem inputLoopGo_eq_mapM (n : String) (o : builderOptions)
    (enc : EncryptHook) (fields : List MetaFieldI) :
    ∀ b sf, inputLoopGo n o enc fields = some (b, sf) →
      ∃ parts, fields.mapM (processInputField n o enc) = some parts ∧
        b = (parts.map Prod.fst).flatten ∧
        sf = (parts.map Prod.snd).flatten := by
  induction fields with
  | nil =>
    intro b sf h
    cases Option.some.inj h
    exact ⟨[], rfl, rfl, rfl⟩
  | cons x rest ih =>
    intro b sf h
    simp only [inputLoopGo, Option.bind_eq_bind, Option.bind_eq_some] at h
    obtain ⟨⟨sh, fh⟩, hx, h⟩ := h
    obtain ⟨⟨st, ft⟩, ht, h⟩ := h
    obtain ⟨parts, hm, hb, hs⟩ := ih st ft ht
    obtain ⟨hb2, hs2⟩ := Prod.ext_iff.mp ((Option.some.inj h).symm)
    refine ⟨(sh, fh) :: parts, ?_, ?_, ?_⟩
    · rw [List.mapM_cons, hx, hm]
      rfl
    · rw [show b = sh ++ st from hb2, hb]
      rfl
    · rw [show sf = fh ++ ft from hs2, hs]
      rfl

/-- A successful per-leaf input processing contributes the leaf field to
the option shape exactly when the leaf is not omitted. -/
theorem processInputField_shape (n : String) (o : builderOptions)
    (enc : EncryptHook) (mf : MetaField) (stmts : List GoStmt)
    (sf : List GoField)
    (h : processInputField n o enc (.metaField mf) = some (stmts, sf)) :
    ∃ om, leafOmitted mf = some om ∧
      sf = if om then [] else [mf.field] := by
  simp only [processInputField] at h
  cases htag : mf.field.tag with
  | none => rw [htag] at h; exact absurd h (by simp)
  | some tg =>
    rw [htag] at h
    cases hn0 : mf.field.names.head? with
    | none =>
      rw [hn0] at h
      exact absurd h (by simp)
    | some n0 =>
      rw [hn0] at h
      simp only [Option.bind_eq_bind, Option.some_bind] at h
      cases hlk : (fieldTagToMap tg).lookup TagTypeSQL with
      | none =>
        rw [hlk] at h
        exact absurd h (by simp)
      | some sqlTags =>
        rw [hlk] at h
        simp only [Option.some_bind] at h
        by_cases hemp : sqlTags.isEmpty
        · rw [hemp] at h
          exact absurd h (by simp)
        · rw [Bool.not_eq_true] at hemp
          rw [hemp] at h
          simp only [Bool.false_eq_true, if_false] at h
          refine ⟨(makeValuePicker (sqlTags.drop 1)
            (SimpleSelector n n0)).2, ?_, ?_⟩
          · unfold leafOmitted
            rw [htag]
            simp only [Option.bind_eq_bind, Option.some_bind, hlk, hemp,
              Bool.false_eq_true, if_false]
            rw [makeValuePicker_snd (sqlTags.drop 1)
              (GoExpr.ident "x") (SimpleSelector n n0)]
          · exact (Prod.ext_iff.mp ((Option.some.inj h).symm)).2

/-- C6: on a successful run of the input-value processor, the emitted
statement sequence is the concatenation of the per-field statement lists
in input field order; the declared option shape lists exactly the fields
of the non-omitted leaves in input order (each leaf contributing its field
when not omitted and nothing when omitted); and when every field is
omitted, no shape declaration and no formal parameter are returned. -/
theorem c6_input_order_and_shape (n t : String)
    (fields : List MetaFieldI) (o : builderOptions) (enc : EncryptHook)
    (r : List GoStmt × DeclMap × List GoField)
    (h : BuildInputValuesProcessor n t fields o enc = some r) :
    ∃ parts, fields.mapM (processInputField n o enc) = some parts ∧
      r.1 = (parts.map Prod.fst).flatten ∧
      (∀ mf stmts sf, processInputField n o enc (.metaField mf) =
        some (stmts, sf) → ∃ om, leafOmitted mf = some om ∧
          sf = if om then [] else [mf.field]) ∧
      ((parts.map Prod.snd).flatten = [] → r.2.1 = [] ∧ r.2.2 = []) ∧
      ((parts.map Prod.snd).flatten ≠ [] →
        r.2.1 = [(t, ⟨t, (parts.map Prod.snd).flatten⟩)] ∧
        r.2.2 = [⟨[n], .ident t, none⟩]) := by
  unfold BuildInputValuesProcessor at h
  simp only [Option.bind_eq_bind, Option.bind_eq_some] at h
  obtain ⟨⟨body, osf⟩, hloop, h⟩ := h
  obtain ⟨parts, hm, hb, hs⟩ := inputLoopGo_eq_mapM n o enc fields body osf
    hloop
  refine ⟨parts, hm, ?_, ?_, ?_, ?_⟩
  · cases hemp : osf.isEmpty
    · rw [hemp] at h
      simp only [Bool.false_eq_true, if_false] at h
      have hr := (Option.some.inj h).symm
      rw [hr]
      exact hb
    · rw [hemp] at h
      simp only [if_true] at h
      have hr := (Option.some.inj h).symm
      rw [hr]
      exact hb
  · exact fun mf stmts sf hf => processInputField_shape n o enc mf stmts
      sf hf
  · intro hflat
    have hosf : osf = [] := by rw [hs, hflat]
    subst hosf
    simp only [List.isEmpty_nil, if_true] at h
    have hr := (Option.some.inj h).symm
    rw [hr]
    exact ⟨rfl, rfl⟩
  · intro hflat
    have hosf : osf ≠ [] := by rw [hs]; exact hflat
    have hemp : osf.isEmpty = false := by
      cases osf with
      | nil => exact absurd rfl hosf
      | cons a l => rfl
    rw [hemp] at h
    simp only [Bool.false_eq_true, if_false] at h
    have hr := (Option.some.inj h).symm
    rw [hr, hs]
    exact ⟨rfl, rfl⟩

/-- Witness for C6 at a two-leaf write list, one leaf server-generated
(omitted), the other caller-supplied. -/
theorem c6_input_order_and_shape_witness :
    ∃ parts,
      ([.metaField (egTaggedLeaf "Name" "name" "sql:\"name\""),
        .metaField (egTaggedLeaf "Created" "created"
          "sql:\"created,generate\"")] :
          List MetaFieldI).mapM
        (processInputField "rec" InsertBuilderOptions none) = some parts ∧
      ((BuildInputValuesProcessor "rec" "TRec"
        [.metaField (egTaggedLeaf "Name" "name" "sql:\"name\""),
         .metaField (egTaggedLeaf "Created" "created"
           "sql:\"created,generate\"")]
        InsertBuilderOptions none).getD ([], [], [])).1 =
        (parts.map Prod.fst).flatten ∧
      (∀ mf stmts sf, processInputField "rec" InsertBuilderOptions none
          (.metaField mf) = some (stmts, sf) →
        ∃ om, leafOmitted mf = some om ∧
          sf = if om then [] else [mf.field]) ∧
      ((parts.map Prod.snd).flatten = [] →
        ((BuildInputValuesProcessor "rec" "TRec"
          [.metaField (egTaggedLeaf "Name" "name" "sql:\"name\""),
           .metaField (egTaggedLeaf "Created" "created"
             "sql:\"created,generate\"")]
          InsertBuilderOptions none).getD ([], [], [])).2.1 = [] ∧
        ((BuildInputValuesProcessor "rec" "TRec"
          [.metaField (egTaggedLeaf "Name" "name" "sql:\"name\""),
           .metaField (egTaggedLeaf "Created" "created"
             "sql:\"created,generate\"")]
          InsertBuilderOptions none).getD ([], [], [])).2.2 = []) ∧
      ((parts.map Prod.snd).flatten ≠ [] →
        ((BuildInputValuesProcessor "rec" "TRec"
          [.metaField (egTaggedLeaf "Name" "name" "sql:\"name\""),
           .metaField (egTaggedLeaf "Created" "created"
             "sql:\"created,generate\"")]
          InsertBuilderOptions none).getD ([], [], [])).2.1 =
          [("TRec", ⟨"TRec", (parts.map Prod.snd).flatten⟩)] ∧
        ((BuildInputValuesProcessor "rec" "TRec"
          [.metaField (egTaggedLeaf "Name" "name" "sql:\"name\""),
           .metaField (egTaggedLeaf "Created" "created"
             "sql:\"created,generate\"")]
          InsertBuilderOptions none).getD ([], [], [])).2.2 =
          [⟨["rec"], .ident "TRec", none⟩]) :=
  c6_input_order_and_shape "rec" "TRec"
    [.metaField (egTaggedLeaf "Name" "name" "sql:\"name\""),
     .metaField (egTaggedLeaf "Created" "created"
       "sql:\"created,generate\"")]
    InsertBuilderOptions none
    ((BuildInputValuesProcessor "rec" "TRec"
      [.metaField (egTaggedLeaf "Name" "name" "sql:\"name\""),
       .metaField (egTaggedLeaf "Created" "created"
         "sql:\"created,generate\"")]
      InsertBuilderOptions none).getD ([], [], []))
    (by rfl)

/-! ## Claim C3: placeholder verbs of the operator templates -/

/-- C3 counterexample: the claim states that every operator template except
is-null carries exactly two `%s` verbs and that is-null carries exactly
one.  Both parts fail on the registered table: the `notEqual` template
`% != %s` carries a single `%s` verb (its first placeholder is the bare
`%` of a slip), and the `isNull` template `%s is %s` carries two. -/
theorem c3_counterexample :
    ¬ (∀ p ∈ knownOperators,
        countVerbS p.2.operator.data = if p.1 = "isNull" then 1 else 2) := by
  intro h
  have h1 := h ("notEqual", .opRegular "% != %s")
    (List.Mem.tail _ (List.Mem.head _))
  simp only [iOperator.operator] at h1
  have : countVerbS "% != %s".data = 2 := by
    simpa using h1
  exact absurd this (by decide)

/-- C3 amended: every registered operator template carries exactly two
`%s` verbs, except `notEqual`, whose template text `% != %s` carries a
single `%s` verb; in particular the `isNull` template also carries two
verbs (the inline shape consumes its second verb itself instead of binding
an argument). -/
theorem c3_verb_counts :
    (knownOperators.map fun p => (p.1, countVerbS p.2.operator.data)) =
      [("equal", 2), ("notEqual", 1), ("like", 2), ("notLike", 2),
       ("in", 2), ("notIn", 2), ("great", 2), ("less", 2), ("notGreat", 2),
       ("notLess", 2), ("starts", 2), ("isNull", 2)] := by
  rfl

/-! ## Claim C8: the write-once encryption hook -/

/-- C8: registering the encryption hook on the empty slot stores exactly
the given function; a second registration panics (`none`), so the stored
hook is left unchanged; with no registered hook `makeEncryptPasswordCall`
falls back to the default `encryptPassword(value)` call convention, and
with a registered hook it applies the hook. -/
theorem c8_encrypt_hook_registration (f g : GoExpr → GoExpr) (v : GoExpr) :
    RegisterSqlFieldEncryptFunction none f = some (some f) ∧
    RegisterSqlFieldEncryptFunction (some g) f = none ∧
    makeEncryptPasswordCall none v =
      .call (.ident "encryptPassword") [v] false ∧
    makeEncryptPasswordCall (some g) v = g v :=
  ⟨rfl, rfl, rfl, rfl⟩

/-! ## Claim C9: the destination field extractor -/

theorem extract_foldlM (row : String) (leaves : List MetaField) :
    ∀ acc : List GoExpr × List String,
      List.foldlM (extractStep row) acc (leaves.map .metaField) =
        some (acc.1 ++ leaves.flatMap
                (fun f => f.field.names.map
                  fun n => Ref (SimpleSelector row n)),
              acc.2 ++ leaves.flatMap
                (fun f => f.field.names.map fun _ => f.sourceSql.sqlExpr)) := by
  induction leaves with
  | nil => intro acc; simp
  | cons f rest ih =>
    intro acc
    rw [List.map_cons, List.foldlM_cons]
    simp only [extractStep, Option.bind_eq_bind, Option.some_bind]
    rw [ih]
    simp

/-- C9: on a list of leaf fields the extractor succeeds and returns two
lists of equal length — one destination reference and one source column
label per declared name, multi-name leaves contributing one entry per
name — whose positions correspond pairwise (entry `k` of both lists stems
from the same name of the same leaf). -/
theorem c9_extract_parallel_lists (rowVariableName : String)
    (leaves : List MetaField) :
    ExtractDestinationFieldRefsFromStruct rowVariableName
        (leaves.map .metaField) =
      some (leaves.flatMap (fun f => f.field.names.map
              fun n => Ref (SimpleSelector rowVariableName n)),
            leaves.flatMap (fun f => f.field.names.map
              fun _ => f.sourceSql.sqlExpr)) ∧
    (leaves.flatMap (fun f => f.field.names.map
        fun n => Ref (SimpleSelector rowVariableName n))).length =
      (leaves.map (fun f => f.field.names.length)).sum ∧
    (leaves.flatMap (fun f => f.field.names.map
        fun _ => f.sourceSql.sqlExpr)).length =
      (leaves.map (fun f => f.field.names.length)).sum := by
  refine ⟨?_, ?_, ?_⟩
  · rw [ExtractDestinationFieldRefsFromStruct, extract_foldlM]
    simp
  · rw [List.length_flatMap]
    simp [Function.comp_def]
  · rw [List.length_flatMap]
    simp [Function.comp_def]

/-! ## Claim C10: multi-name leaves are rejected on the filter path -/

/-- C10: a leaf whose underlying field declares a number of names different
from one makes the per-leaf filter dispatch panic (`none`), while the same
leaf is accepted by the scan-path extractor. -/
theorem c10_multiname_leaf_filter_path (mf : MetaField)
    (funcFilterOptionName : String) (options : builderOptions)
    (h : mf.field.names.length ≠ 1) :
    mf.buildFindArgumentsProcessor funcFilterOptionName options = none ∧
    (ExtractDestinationFieldRefsFromStruct "row" [.metaField mf]).isSome =
      true := by
  constructor
  · unfold MetaField.buildFindArgumentsProcessor
    cases hn : mf.field.names with
    | nil => rfl
    | cons a t =>
      cases t with
      | nil => exact absurd (by rw [hn]; rfl) h
      | cons b t2 => rfl
  · rfl

/-- Witness for C10 at a concrete two-name leaf. -/
theorem c10_multiname_leaf_filter_path_witness :
    egTwoNames.buildFindArgumentsProcessor "opt" FindBuilderOptions =
      none ∧
    (ExtractDestinationFieldRefsFromStruct "row"
        [.metaField egTwoNames]).isSome = true :=
  c10_multiname_leaf_filter_path egTwoNames "opt" FindBuilderOptions
    (by decide)

/-! ## Claim C7: union sources and multi-value operators exclude each
other -/

/-- C7: on a union-of-columns leaf, a multi-value comparison operator makes
`makeFindProcessorForUnion` panic (`none`) before any statement is
produced; with a non-multi-value operator of the known set the synthesis
succeeds. -/
theorem c7_union_excludes_multivalue (funcFilterOptionName fieldName :
    String) (union : List String) (field : MetaField)
    (options : builderOptions) :
    (IsMult field.compareOperator = true →
      makeFindProcessorForUnion funcFilterOptionName fieldName union field
        options = none) ∧
    (IsMult field.compareOperator = false →
      ∀ b, getBuilder field.compareOperator = some b →
        (makeFindProcessorForUnion funcFilterOptionName fieldName union
          field options).isSome = true) := by
  constructor
  · intro h
    simp [makeFindProcessorForUnion, h]
  · intro h b hb
    cases hs : field.field.typ.isStar <;>
      simp [makeFindProcessorForUnion, h, hb, hs]

/-- Witness for C7: the multi-value operator `in` panics on a union leaf,
the scalar operator `equal` succeeds on the same union. -/
theorem c7_union_excludes_multivalue_witness :
    makeFindProcessorForUnion "opt" "F" ["a", "b"]
      (egUnionLeaf "F" ["a", "b"] "in") FindBuilderOptions = none ∧
    (makeFindProcessorForUnion "opt" "F" ["a", "b"]
      (egUnionLeaf "F" ["a", "b"] "equal") FindBuilderOptions).isSome =
      true :=
  ⟨(c7_union_excludes_multivalue "opt" "F" ["a", "b"]
      (egUnionLeaf "F" ["a", "b"] "in") FindBuilderOptions).1 rfl,
   (c7_union_excludes_multivalue "opt" "F" ["a", "b"]
      (egUnionLeaf "F" ["a", "b"] "equal") FindBuilderOptions).2 rfl
    (.opRegular "%s = %s") rfl⟩

/-! ## Claim C5: null guards of ordinary and multi-value leaves -/

theorem scalar_option_no_if (b : iOperator)
    (optionName fieldName columnName : String) (ci ref : Bool)
    (options : builderOptions) :
    ∀ s ∈ b.makeScalarQueryOption optionName fieldName columnName ci ref
        options, s.isIf = false := by
  intro s hs
  cases b <;>
    simp only [iOperator.makeScalarQueryOption, List.mem_cons,
      List.mem_singleton, List.not_mem_nil, or_false] at hs <;>
    rcases hs with rfl | rfl <;> rfl

theorem array_option_no_if (b : iOperator)
    (optionName fieldName columnName : String) (ci : Bool)
    (options : builderOptions) :
    ∀ s ∈ b.makeArrayQueryOption optionName fieldName columnName ci
        options, s.isIf = false := by
  intro s hs
  simp only [iOperator.makeArrayQueryOption, List.mem_cons,
    List.mem_singleton, List.not_mem_nil, or_false] at hs
  rcases hs with rfl | rfl <;> rfl

/-- C5: an ordinary pointer-typed leaf is emitted inside the non-null guard
`if option.field != nil`; an ordinary non-pointer leaf is emitted
unconditionally (its statements contain no if statement); and a
multi-value leaf is dispatched to the unconditional array emission, which
contains no if statement, irrespective of the field type. -/
theorem c5_null_guard_shapes (funcFilterOptionName fieldName : String)
    (field : MetaField) (options : builderOptions) (b : iOperator)
    (hb : getBuilder field.compareOperator = some b) :
    (field.field.typ.isStar = true →
      makeFindProcessorForSingle funcFilterOptionName fieldName field
          options =
        some [If (NotEqual (SimpleSelector funcFilterOptionName fieldName)
            Nil)
          (b.makeScalarQueryOption funcFilterOptionName fieldName
            field.sourceSql.sqlExpr field.caseInsensitive true options)]) ∧
    (field.field.typ.isStar = false →
      makeFindProcessorForSingle funcFilterOptionName fieldName field
          options =
        some (b.makeScalarQueryOption funcFilterOptionName fieldName
          field.sourceSql.sqlExpr field.caseInsensitive false options) ∧
      ∀ s ∈ b.makeScalarQueryOption funcFilterOptionName fieldName
          field.sourceSql.sqlExpr field.caseInsensitive false options,
        s.isIf = false) ∧
    (field.field.names = [fieldName] → field.sourceSql.isUnion = false →
      IsMult field.compareOperator = true →
      field.buildFindArgumentsProcessor funcFilterOptionName options =
        some (b.makeArrayQueryOption funcFilterOptionName fieldName
            field.sourceSql.sqlExpr field.caseInsensitive options,
          [field.field]) ∧
      ∀ s ∈ b.makeArrayQueryOption funcFilterOptionName fieldName
          field.sourceSql.sqlExpr field.caseInsensitive options,
        s.isIf = false) := by
  refine ⟨?_, ?_, ?_⟩
  · intro hs
    simp [makeFindProcessorForSingle, hs, hb]
  · intro hs
    refine ⟨by simp [makeFindProcessorForSingle, hs, hb], ?_⟩
    exact scalar_option_no_if b funcFilterOptionName fieldName
      field.sourceSql.sqlExpr field.caseInsensitive false options
  · intro hn hu hm
    refine ⟨?_, array_option_no_if b funcFilterOptionName fieldName
      field.sourceSql.sqlExpr field.caseInsensitive options⟩
    unfold MetaField.buildFindArgumentsProcessor
    rw [hn]
    cases hsrc : field.sourceSql with
    | someColumns cs =>
        rw [hsrc] at hu
        simp [SourceSql.isUnion] at hu
    | column c => simp [hm, hb]
    | expression e => simp [hm, hb]

/-- Witness for C5 at concrete pointer, plain and multi-value leaves. -/
theorem c5_null_guard_shapes_witness :
    makeFindProcessorForSingle "opt" "Age" (egStarLeaf "Age" "age" "great")
        FindBuilderOptions =
      some [If (NotEqual (SimpleSelector "opt" "Age") Nil)
        ((iOperator.opRegular "%s > %s").makeScalarQueryOption "opt" "Age"
          "age" false true FindBuilderOptions)] ∧
    makeFindProcessorForSingle "opt" "Name" (egLeaf "Name" "name" "equal")
        FindBuilderOptions =
      some ((iOperator.opRegular "%s = %s").makeScalarQueryOption "opt"
        "Name" "name" false false FindBuilderOptions) ∧
    (egLeaf "Tags" "tags" "in").buildFindArgumentsProcessor "opt"
        FindBuilderOptions =
      some ((iOperator.opRegular "%s in (%s)").makeArrayQueryOption "opt"
          "Tags" "tags" false FindBuilderOptions,
        [(egLeaf "Tags" "tags" "in").field]) :=
  ⟨(c5_null_guard_shapes "opt" "Age" (egStarLeaf "Age" "age" "great")
      FindBuilderOptions (.opRegular "%s > %s") rfl).1 rfl,
   ((c5_null_guard_shapes "opt" "Name" (egLeaf "Name" "name" "equal")
      FindBuilderOptions (.opRegular "%s = %s") rfl).2.1 rfl).1,
   ((c5_null_guard_shapes "opt" "Tags" (egLeaf "Tags" "tags" "in")
      FindBuilderOptions (.opRegular "%s in (%s)") rfl).2.2 rfl rfl
      rfl).1⟩

end GoAst
